import Mathlib

/-!
Verification development for the document-management-service engine:
a shallow embedding of the change (find/replace) engine, the in-memory
document store with its inverted word index, the search engine, and the
ETag concurrency-token module, together with theorems about the
behaviour specified for them.

Strings are modelled as `List Char`; positions are `Nat` indices into
that list (the code's string indices).  The JavaScript regular
expressions built by the services are always escaped literals,
optionally wrapped in word-boundary assertions and optionally
case-insensitive, so they are modelled directly as literal matching
with explicit word-boundary and case predicates.
-/

/-- Word character in the sense of the regex class `\w` and of word
boundaries: ASCII letter, digit or underscore. -/
def isWordChar (c : Char) : Bool :=
  c.isAlpha || c.isDigit || c = '_'

/-- Character comparison used by pattern matching: exact when
`matchCase` is true, case-folded otherwise (the `i` regex flag). -/
def charMatches (matchCase : Bool) (a b : Char) : Bool :=
  if matchCase then a = b else a.toLower = b.toLower

/-- The escaped literal `pat` matches `content` at index `i`
(compare `pat.length` characters starting at `i`). -/
def literalMatchAt (matchCase : Bool) (content pat : List Char) (i : Nat) : Bool :=
  decide (i + pat.length ≤ content.length) &&
    (((content.drop i).take pat.length).zip pat).all (fun p => charMatches matchCase p.1 p.2)

/-- Whether the character at index `j` exists and is a word character. -/
def wordCharAt (content : List Char) (j : Nat) : Bool :=
  match content[j]? with
  | some c => isWordChar c
  | none => false

/-- Word-boundary assertion `\b` between indices `i - 1` and `i`:
exactly one of the two adjacent positions holds a word character
(positions outside the string count as non-word). -/
def boundaryAt (content : List Char) (i : Nat) : Bool :=
  (if i = 0 then false else wordCharAt content (i - 1)) != wordCharAt content i

/-- The pattern built by `buildPattern` — the escaped literal, with
word-boundary assertions when `matchWholeWord` — matches at index `i`. -/
def matchesAt (content pat : List Char) (matchCase matchWholeWord : Bool) (i : Nat) : Bool :=
  literalMatchAt matchCase content pat i &&
    (!matchWholeWord || (boundaryAt content i && boundaryAt content (i + pat.length)))

/-- Scan loop of `findAllMatches` (repeated `RegExp.exec` with the `g`
flag): at each candidate index record a match and continue after it;
a zero-length match advances the cursor by one (the infinite-loop
guard `searchPattern.lastIndex++` in the source).  `fuel` bounds the
number of iterations; `content.length + 1` is always enough. -/
def scanMatches (content pat : List Char) (matchCase matchWholeWord : Bool) :
    Nat → Nat → List Nat
  | 0, _ => []
  | fuel + 1, i =>
    if matchesAt content pat matchCase matchWholeWord i then
      i :: scanMatches content pat matchCase matchWholeWord fuel (i + max 1 pat.length)
    else if i + 1 ≤ content.length then
      scanMatches content pat matchCase matchWholeWord fuel (i + 1)
    else []

/-- All match start indices of the pattern in `content`, in ascending
order, non-overlapping, as enumerated by `findAllMatches` /
`String.prototype.match` with a global literal pattern. -/
def findAllMatches (content pat : List Char) (matchCase matchWholeWord : Bool) : List Nat :=
  scanMatches content pat matchCase matchWholeWord (content.length + 1) 0

/-- A single find/replace directive (`Change` in `types/document.ts`).
`occurrence` is an `Int` because the engine itself accepts any number
(the HTTP schema restricts it to ≥ 1, but the service code does not). -/
structure Change where
  searchText : List Char
  replaceText : List Char
  matchCase : Bool := true
  matchWholeWord : Bool := false
  replaceAll : Bool := true
  occurrence : Option Int := none
  startIndex : Option Nat := none
  endIndex : Option Nat := none
  beforeContext : Option (List Char) := none
  afterContext : Option (List Char) := none
deriving DecidableEq

/-- Result of one change (`ChangeResult` in `types/document.ts`). -/
structure ChangeResult where
  searchText : List Char
  replaceText : List Char
  matchesFound : Nat
  replacementsMade : Nat
  positions : Option (List Nat) := none
deriving DecidableEq

/-- Return value of `applyFastPath` / `applySlowPath` /
`applySingleChange`: the new content together with the result record. -/
structure ApplyOutcome where
  newContent : List Char
  result : ChangeResult
deriving DecidableEq

/-- Match positions of a change's pattern in `content`
(`content.match(pattern)` and `findAllMatches` in the source agree on
this list). -/
def changeMatches (content : List Char) (ch : Change) : List Nat :=
  findAllMatches content ch.searchText ch.matchCase ch.matchWholeWord

/-- Check of `isInRange`: with no range the match is always eligible;
otherwise the match must start at or after `startIndex` (when given)
and end at or before `endIndex` (when given). -/
def isInRange (i L : Nat) (si ei : Option Nat) : Bool :=
  match si, ei with
  | none, none => true
  | si, ei =>
    (match si with | some s => decide (s ≤ i) | none => true) &&
    (match ei with | some e => decide (i + L ≤ e) | none => true)

/-- Check of `validateContext`.  The source guards with JavaScript
truthiness (`if (beforeContext)`), so an empty context string skips
its check; a non-empty one requires room for it and exact (case
sensitive) equality with the adjacent text. -/
def validateContext (content : List Char) (i L : Nat) (bc ac : Option (List Char)) : Bool :=
  (match bc with
   | none => true
   | some b =>
     if b = [] then true
     else decide (b.length ≤ i) && decide ((content.drop (i - b.length)).take b.length = b)) &&
  (match ac with
   | none => true
   | some a =>
     if a = [] then true
     else decide (i + L + a.length ≤ content.length) &&
       decide ((content.drop (i + L)).take a.length = a))

/-- Eligible matches of the slow path: all matches filtered by the
range and context criteria. -/
def eligibleMatches (content : List Char) (ch : Change) : List Nat :=
  (changeMatches content ch).filter (fun i =>
    isInRange i ch.searchText.length ch.startIndex ch.endIndex &&
    validateContext content i ch.searchText.length ch.beforeContext ch.afterContext)

/-- Splice one replacement into `content`: replace the `L` characters
at index `i` by `r` (the string concatenation in the slow path's
replacement loop). -/
def spliceAt (content r : List Char) (i L : Nat) : List Char :=
  content.take i ++ r ++ content.drop (i + L)

/-- Slow-path replacement loop: splice the positions in the given
order (the source sorts them descending first). -/
def spliceDesc (r : List Char) (L : Nat) : List Char → List Nat → List Char
  | content, [] => content
  | content, i :: rest => spliceDesc r L (spliceAt content r i L) rest

/-- The sort `matchesToReplace.sort((a, b) => b.index - a.index)`:
indices in descending order. -/
def sortDescending (l : List Nat) : List Nat :=
  l.insertionSort (· ≥ ·)

/-- Selection step of the slow path, from the non-empty eligible list:
a character range selects all eligible matches; else with
`replaceAll=false` a positive `occurrence` selects the so-numbered
eligible match (1-indexed, nothing when out of range); else with
`replaceAll=false` the first eligible match; else all. -/
def selectMatches (ch : Change) (eligible : List Nat) : List Nat :=
  if ch.startIndex.isSome || ch.endIndex.isSome then
    eligible
  else if !ch.replaceAll &&
      (match ch.occurrence with | some o => decide (0 < o) | none => false) then
    match ch.occurrence with
    | some o => if o ≤ (eligible.length : Int) then [eligible.getD (o.toNat - 1) 0] else []
    | none => []
  else if !ch.replaceAll then
    eligible.take 1
  else
    eligible

/-- The slow path `applySlowPath`: enumerate matches, filter to the
eligible ones, select the matches to replace, splice them from the
highest offset to the lowest, and report the replaced positions in
ascending order (built by `unshift` while splicing descending). -/
def applySlowPath (content : List Char) (ch : Change) : ApplyOutcome :=
  let allMatches := changeMatches content ch
  let eligible := eligibleMatches content ch
  if eligible.isEmpty then
    ⟨content, ⟨ch.searchText, ch.replaceText, allMatches.length, 0, none⟩⟩
  else
    let sorted := sortDescending (selectMatches ch eligible)
    ⟨spliceDesc ch.replaceText ch.searchText.length content sorted,
     ⟨ch.searchText, ch.replaceText, allMatches.length, sorted.length,
      if sorted.reverse.isEmpty then none else some sorted.reverse⟩⟩

/-- Expansion of the replacement string performed by JavaScript
`String.prototype.replace` when the replacement is a plain string:
`$$` yields `$`, `$&` the matched text, a dollar followed by a
backquote the text before the match, `$'` the text after it; every
other character (including `$` followed by anything else — the
pattern has no capture groups) is copied literally.  `ms`/`me` are the
match's start/end indices in `orig`. -/
def expandRepl (orig : List Char) (ms me : Nat) : List Char → List Char
  | [] => []
  | [c] => [c]
  | c :: c2 :: rest =>
    if c = '$' then
      if c2 = '$' then '$' :: expandRepl orig ms me rest
      else if c2 = '&' then (orig.drop ms).take (me - ms) ++ expandRepl orig ms me rest
      else if c2.toNat = 96 then orig.take ms ++ expandRepl orig ms me rest
      else if c2 = '\'' then orig.drop me ++ expandRepl orig ms me rest
      else '$' :: expandRepl orig ms me (c2 :: rest)
    else c :: expandRepl orig ms me (c2 :: rest)

/-- Whether the replacement string contains a dollar sequence that
`String.prototype.replace` treats specially (`$$`, `$&`,
dollar-backquote, `$'`). -/
def hasSpecialDollar : List Char → Bool
  | [] => false
  | c :: rest =>
    (c = '$' &&
      (match rest with
       | [] => false
       | c2 :: _ => c2 = '$' || c2 = '&' || decide (c2.toNat = 96) || c2 = '\'')) ||
    hasSpecialDollar rest

/-- Semantics of `content.replace(pattern, replaceText)` restricted to
the given ascending list of match positions, each of length `L`:
copy from the cursor up to each match, emit the expanded replacement,
and continue after the match. -/
def jsReplaceGo (orig r : List Char) (L : Nat) : Nat → List Nat → List Char
  | cur, [] => orig.drop cur
  | cur, i :: rest =>
    (orig.drop cur).take (i - cur) ++ expandRepl orig i (i + L) r ++
      jsReplaceGo orig r L (i + L) rest

/-- Full-string replacement at the given ascending match positions. -/
def jsReplace (orig r : List Char) (L : Nat) (positions : List Nat) : List Char :=
  jsReplaceGo orig r L 0 positions

/-- Literal (no dollar expansion) left-to-right reconstruction of the
content with `r` substituted at each of the ascending positions; this
is the reference shape the slow path's descending splice realises. -/
def litReplaceGo (orig r : List Char) (L : Nat) : Nat → List Nat → List Char
  | cur, [] => orig.drop cur
  | cur, i :: rest =>
    (orig.drop cur).take (i - cur) ++ r ++ litReplaceGo orig r L (i + L) rest

/-- The fast path `applyFastPath`: count the matches; at zero return
unchanged; otherwise substitute every match (`replaceAll`) or only the
first one via native `String.prototype.replace`. -/
def applyFastPath (content : List Char) (ch : Change) : ApplyOutcome :=
  let ms := changeMatches content ch
  let matchesFound := ms.length
  if matchesFound = 0 then
    ⟨content, ⟨ch.searchText, ch.replaceText, 0, 0, none⟩⟩
  else if ch.replaceAll then
    ⟨jsReplace content ch.replaceText ch.searchText.length ms,
     ⟨ch.searchText, ch.replaceText, matchesFound, matchesFound, none⟩⟩
  else
    ⟨jsReplace content ch.replaceText ch.searchText.length (ms.take 1),
     ⟨ch.searchText, ch.replaceText, matchesFound, 1, none⟩⟩

/-- Classification `usesAdvancedTargeting`: any positional or
contextual constraint, or a specific occurrence with
`replaceAll === false`, forces the slow path. -/
def usesAdvancedTargeting (ch : Change) : Bool :=
  ch.startIndex.isSome || ch.endIndex.isSome ||
  ch.beforeContext.isSome || ch.afterContext.isSome ||
  (!ch.replaceAll && ch.occurrence.isSome)

/-- Dispatcher `applySingleChange`: fast path unless the change uses
advanced targeting. -/
def applySingleChange (content : List Char) (ch : Change) : ApplyOutcome :=
  if !usesAdvancedTargeting ch then applyFastPath content ch
  else applySlowPath content ch

/-! ## Document store (`services/storage.ts`) -/

/-- Metadata record of a stored document. -/
structure DocumentMetadata where
  author : Option (List Char) := none
  tags : Option (List (List Char)) := none
  wordCount : Nat := 0
  characterCount : Nat := 0
deriving DecidableEq

/-- A stored document. -/
structure Document where
  id : List Char
  title : List Char
  content : List Char
  metadata : DocumentMetadata
  createdAt : List Char
  updatedAt : List Char
  version : Nat
deriving DecidableEq

/-- Replace every character that is neither a word character nor
whitespace by a space (the sanitising `replace` in `extractWords`). -/
def sanitizeChar (c : Char) : Char :=
  if isWordChar c || c.isWhitespace then c else ' '

/-- Split on whitespace runs, discarding empty pieces; `acc` holds the
current word reversed.  This combines the source's `split` on
whitespace runs with its `filter` of non-empty words. -/
def splitWordsAux (acc : List Char) : List Char → List (List Char)
  | [] => if acc.isEmpty then [] else [acc.reverse]
  | c :: rest =>
    if c.isWhitespace then
      if acc.isEmpty then splitWordsAux [] rest
      else acc.reverse :: splitWordsAux [] rest
    else splitWordsAux (c :: acc) rest

/-- Tokenizer `extractWords`: lowercase, replace punctuation by
spaces, split on whitespace, drop empty words. -/
def extractWords (text : List Char) : List (List Char) :=
  splitWordsAux [] ((text.map Char.toLower).map sanitizeChar)

/-- The term set a document is indexed under: the deduplicated words
of its title and content (`new Set` over both word lists). -/
def termsOf (doc : Document) : List (List Char) :=
  (extractWords doc.title ++ extractWords doc.content).dedup

/-- The inverted index: a map (association list, insertion-ordered
like a JavaScript `Map`) from a word to the posting list of ids of
documents containing it. -/
abbrev WordIndex := List (List Char × List (List Char))

/-- Posting list of a word (`wordIndex.get(word)`, with the empty
list when the key is absent). -/
def idxLookup (index : WordIndex) (t : List Char) : List (List Char) :=
  match index.find? (fun e => decide (e.1 = t)) with
  | some e => e.2
  | none => []

/-- Add `d` to the posting set of `t`, creating the entry when absent
(the body of the loop in `indexDocument`; `Set.add` keeps an already
present element). -/
def idxAdd : WordIndex → List Char → List Char → WordIndex
  | [], t, d => [(t, [d])]
  | e :: rest, t, d =>
    if e.1 = t then (e.1, if d ∈ e.2 then e.2 else e.2 ++ [d]) :: rest
    else e :: idxAdd rest t d

/-- Remove `d` from the posting set of `t`, deleting the key when the
set becomes empty (the body of the loop in `removeFromIndex`). -/
def idxRemove : WordIndex → List Char → List Char → WordIndex
  | [], _, _ => []
  | e :: rest, t, d =>
    if e.1 = t then
      let ps := e.2.erase d
      if ps.isEmpty then rest else (e.1, ps) :: rest
    else e :: idxRemove rest t d

/-- Index a document under all its terms (`indexDocument`). -/
def indexDocument (doc : Document) (index : WordIndex) : WordIndex :=
  (termsOf doc).foldl (fun ix w => idxAdd ix w doc.id) index

/-- Remove a document from the index under all its terms
(`removeFromIndex`). -/
def removeFromIndex (doc : Document) (index : WordIndex) : WordIndex :=
  (termsOf doc).foldl (fun ix w => idxRemove ix w doc.id) index

/-- The module-level mutable state of `storage.ts`: the document map
and the inverted word index (both insertion-ordered). -/
structure StoreState where
  documents : List Document
  wordIndex : WordIndex
deriving DecidableEq

/-- The initial state: both maps empty. -/
def emptyStore : StoreState := ⟨[], []⟩

/-- Lookup `documents.get(id)`. -/
def docFind (s : StoreState) (id : List Char) : Option Document :=
  s.documents.find? (fun d => decide (d.id = id))

/-- Input of `createDocument`. -/
structure CreateDocumentInput where
  title : List Char
  content : List Char
  author : Option (List Char) := none
  tags : Option (List (List Char)) := none
deriving DecidableEq

/-- The service `createDocument`.  The source draws `id` from
`randomUUID()` and `now` from the clock; both are passed in here. -/
def createDocument (s : StoreState) (id : List Char) (input : CreateDocumentInput)
    (now : List Char) : StoreState × Document :=
  let doc : Document :=
    { id := id, title := input.title, content := input.content,
      metadata :=
        { author := input.author, tags := input.tags,
          wordCount := (extractWords input.content).length,
          characterCount := input.content.length },
      createdAt := now, updatedAt := now, version := 1 }
  (⟨s.documents ++ [doc], indexDocument doc s.wordIndex⟩, doc)

/-- Input of `updateDocument` (partial title/content). -/
structure UpdateDocumentInput where
  title : Option (List Char) := none
  content : Option (List Char) := none
deriving DecidableEq

/-- Field updates of `updateDocument` (before the version bump). -/
def applyDocUpdates (doc : Document) (u : UpdateDocumentInput) : Document :=
  let doc :=
    match u.title with
    | some t => { doc with title := t }
    | none => doc
  match u.content with
  | some c =>
    { doc with
      content := c
      metadata := { doc.metadata with wordCount := (extractWords c).length, characterCount := c.length } }
  | none => doc

/-- The service `updateDocument`: remove the old term set from the
index, mutate the document, bump `version`, set `updatedAt`, re-add
the new term set.  A missing id leaves the state unchanged. -/
def updateDocument (s : StoreState) (id : List Char) (u : UpdateDocumentInput)
    (now : List Char) : StoreState × Option Document :=
  match docFind s id with
  | none => (s, none)
  | some doc =>
    let ix1 := removeFromIndex doc s.wordIndex
    let doc' := { applyDocUpdates doc u with updatedAt := now, version := doc.version + 1 }
    (⟨s.documents.map (fun d => if d.id = id then doc' else d), indexDocument doc' ix1⟩,
     some doc')

/-- The service `deleteDocument`: remove from the index, then from
storage; report whether a document existed. -/
def deleteDocument (s : StoreState) (id : List Char) : StoreState × Bool :=
  match docFind s id with
  | none => (s, false)
  | some doc =>
    (⟨s.documents.filter (fun d => decide (d.id ≠ id)), removeFromIndex doc s.wordIndex⟩,
     true)

/-- Input of `patchDocument` (title/author/tags, never content). -/
structure PatchDocumentInput where
  title : Option (List Char) := none
  author : Option (List Char) := none
  tags : Option (List (List Char)) := none
deriving DecidableEq

/-- Field updates of `patchDocument` (before the version bump). -/
def applyDocPatch (doc : Document) (p : PatchDocumentInput) : Document :=
  let doc :=
    match p.title with
    | some t => { doc with title := t }
    | none => doc
  let doc :=
    match p.author with
    | some a => { doc with metadata := { doc.metadata with author := some a } }
    | none => doc
  match p.tags with
  | some tg => { doc with metadata := { doc.metadata with tags := some tg } }
  | none => doc

/-- Whether the patch supplies a title different from the current one
(`patch.title !== undefined && patch.title !== doc.title`). -/
def patchTitleChanged (doc : Document) (p : PatchDocumentInput) : Bool :=
  match p.title with
  | some t => decide (t ≠ doc.title)
  | none => false

/-- The service `patchDocument`: re-index (remove before mutating,
add after) only when the title changes; always bump `version` and set
`updatedAt`.  A missing id leaves the state unchanged. -/
def patchDocument (s : StoreState) (id : List Char) (p : PatchDocumentInput)
    (now : List Char) : StoreState × Option Document :=
  match docFind s id with
  | none => (s, none)
  | some doc =>
    let titleChanged := patchTitleChanged doc p
    let ix1 := if titleChanged then removeFromIndex doc s.wordIndex else s.wordIndex
    let doc' := { applyDocPatch doc p with updatedAt := now, version := doc.version + 1 }
    let ix2 := if titleChanged then indexDocument doc' ix1 else ix1
    (⟨s.documents.map (fun d => if d.id = id then doc' else d), ix2⟩, some doc')

/-- Lowercasing of a word (`word.toLowerCase()`). -/
def lowerStr (w : List Char) : List Char :=
  w.map Char.toLower

/-- The service `getDocumentsByIds`: map ids to documents, dropping
the missing ones. -/
def getDocumentsByIds (s : StoreState) (ids : List (List Char)) : List Document :=
  ids.filterMap (docFind s)

/-- The service `findDocumentsByWord`: posting list of the lowercased
word, empty when the word is unknown. -/
def findDocumentsByWord (s : StoreState) (w : List Char) : List (List Char) :=
  idxLookup s.wordIndex (lowerStr w)

/-- Intersection loop of `findDocumentsByWords`: starting from the
first (smallest) posting list, filter by membership in each next list,
stopping once the running result is empty. -/
def intersectPostings : List (List Char) → List (List (List Char)) → List (List Char)
  | result, [] => result
  | result, nextSet :: rest =>
    if result.isEmpty then result
    else intersectPostings (result.filter (fun d => decide (d ∈ nextSet))) rest

/-- The service `findDocumentsByWords`: empty for no words, plain
lookup for one word; otherwise collect the posting lists (dropping
absent-or-empty ones — if any word lost its list the intersection is
empty), sort them by ascending size and intersect from the smallest. -/
def findDocumentsByWords (s : StoreState) (words : List (List Char)) : List (List Char) :=
  match words with
  | [] => []
  | [w] => findDocumentsByWord s w
  | _ =>
    let postingLists :=
      ((words.map (fun w => idxLookup s.wordIndex (lowerStr w))).filter
        (fun ps => decide (0 < ps.length)))
    if postingLists.length ≠ words.length then []
    else
      match postingLists.insertionSort (fun a b => a.length ≤ b.length) with
      | [] => []
      | first :: rest => intersectPostings first rest

/-! ## Search engine (`services/search.service.ts`) -/

/-- A search request (`SearchQuery`), with the defaults the service
destructuring applies. -/
structure SearchQuery where
  query : List Char
  documentIds : Option (List (List Char)) := none
  caseSensitive : Bool := false
  contextSize : Nat := 50
  maxResults : Nat := 100
deriving DecidableEq

/-- One search hit (`SearchMatch`). -/
structure SearchMatch where
  documentId : List Char
  documentTitle : List Char
  position : Nat
  context : List Char
  matchedText : List Char
deriving DecidableEq

/-- The search response (`SearchResponse`). -/
structure SearchResponse where
  query : List Char
  totalMatches : Nat
  documentsSearched : Nat
  results : List SearchMatch
deriving DecidableEq

/-- Context snippet around a match (`extractContext`): slice
`contextSize` characters either side, clamped to the content, with an
ellipsis marker on each truncated edge. -/
def extractContext (content : List Char) (ms me contextSize : Nat) : List Char :=
  let start := ms - contextSize
  let stop := min content.length (me + contextSize)
  let ctx := (content.drop start).take (stop - start)
  let ctx := if 0 < start then ("...").data ++ ctx else ctx
  if stop < content.length then ctx ++ ("...").data else ctx

/-- One hit record pushed by `searchInDocument`. -/
def mkSearchMatch (doc : Document) (queryLen contextSize : Nat) (p : Nat) : SearchMatch :=
  { documentId := doc.id, documentTitle := doc.title, position := p,
    context := extractContext doc.content p (p + queryLen) contextSize,
    matchedText := (doc.content.drop p).take queryLen }

/-- Inner loop of `searchInDocument`: push a hit for each match
position until `maxResults` accumulated results. -/
def pushMatches (doc : Document) (queryLen contextSize maxResults : Nat) :
    List Nat → List SearchMatch → List SearchMatch
  | [], acc => acc
  | p :: rest, acc =>
    if maxResults ≤ acc.length then acc
    else pushMatches doc queryLen contextSize maxResults rest
      (acc ++ [mkSearchMatch doc queryLen contextSize p])

/-- The service `searchInDocument`: scan the document's content with
the literal query pattern and append capped hit records. -/
def searchInDocument (doc : Document) (query : List Char) (caseSensitive : Bool)
    (contextSize maxResults : Nat) (currentResults : List SearchMatch) : List SearchMatch :=
  pushMatches doc query.length contextSize maxResults
    (findAllMatches doc.content query caseSensitive false) currentResults

/-- The service `getCandidateDocuments`: a supplied non-empty
`documentIds` wins outright (`documentIds && documentIds.length > 0`);
otherwise tokenize the query and consult the inverted index (empty,
single-word lookup, or multi-word intersection). -/
def getCandidateDocuments (s : StoreState) (query : List Char)
    (documentIds : Option (List (List Char))) : List Document :=
  let queryWords := extractWords query
  match documentIds with
  | some (i :: is) => getDocumentsByIds s (i :: is)
  | _ =>
    match queryWords with
    | [] => []
    | [w] =>
      let candidateIds := findDocumentsByWord s w
      if 0 < candidateIds.length then getDocumentsByIds s candidateIds else []
    | _ =>
      let candidateIds := findDocumentsByWords s queryWords
      if 0 < candidateIds.length then getDocumentsByIds s candidateIds else []

/-- Outer loop of `search`: scan the candidates in order, stopping
entirely once `maxResults` results are accumulated. -/
def searchLoop (query : List Char) (caseSensitive : Bool) (contextSize maxResults : Nat) :
    List Document → List SearchMatch → List SearchMatch
  | [], results => results
  | doc :: rest, results =>
    if maxResults ≤ results.length then results
    else searchLoop query caseSensitive contextSize maxResults rest
      (searchInDocument doc query caseSensitive contextSize maxResults results)

/-- The service `search`: candidate selection, capped scan, and the
response with `totalMatches = results.length` and `documentsSearched`
the size of the candidate set. -/
def search (s : StoreState) (q : SearchQuery) : SearchResponse :=
  let candidates := getCandidateDocuments s q.query q.documentIds
  let results := searchLoop q.query q.caseSensitive q.contextSize q.maxResults candidates []
  { query := q.query, totalMatches := results.length,
    documentsSearched := candidates.length, results := results }

/-! ## Concurrency tokens (`utils/etag.ts`) -/

/-- Decimal digit or lowercase hex letter for a value below 16. -/
def digitCh (n : Nat) : Char :=
  if n < 10 then Char.ofNat (48 + n) else Char.ofNat (87 + n)

/-- Little-endian decimal digits of `n` (empty for 0). -/
def decReprAux (n : Nat) : List Char :=
  if n = 0 then [] else digitCh (n % 10) :: decReprAux (n / 10)
decreasing_by exact Nat.div_lt_self (Nat.pos_of_ne_zero (by assumption)) (by omega)

/-- Decimal representation of `n` (the template interpolation
`${doc.version}`). -/
def decRepr (n : Nat) : List Char :=
  if n = 0 then [('0' : Char)] else (decReprAux n).reverse

/-- Modelled from the spec: the source digests the seed string with
Node's `crypto` MD5 (external to this repository) and keeps the first
8 hex characters; the spec states that "any digest algorithm producing
a fixed-width hex string is acceptable", so the digest is modelled by
a concrete 32-bit fold rendered as 8 hex characters. -/
def digest8 (l : List Char) : List Char :=
  let h := l.foldl (fun h c => (h * 31 + c.toNat) % 4294967296) 0
  (List.range 8).map (fun k => digitCh (h / 16 ^ (7 - k) % 16))

/-- The service `generateETag`: digest of `id-version-updatedAt`,
wrapped as `"v<version>-<digest>"` (the double quotes are part of the
token). -/
def generateETag (doc : Document) : List Char :=
  '"' :: 'v' :: (decRepr doc.version ++ '-' ::
    (digest8 (doc.id ++ '-' :: (decRepr doc.version ++ '-' :: doc.updatedAt)) ++ ['"']))

/-- Strip one leading weak-validator marker `W/`
(`.replace(/^W\//, '')`). -/
def stripWeak (l : List Char) : List Char :=
  if l.take 2 = [('W' : Char), '/'] then l.drop 2 else l

/-- Split on commas (`ifMatch.split(',')`); splitting a comma-free
string yields that string as the single piece. -/
def splitOnComma : List Char → List (List Char)
  | [] => [[]]
  | c :: rest =>
    if c = ',' then [] :: splitOnComma rest
    else
      match splitOnComma rest with
      | h :: t => (c :: h) :: t
      | [] => [[c]]

/-- Whitespace trimming (`.trim()`). -/
def trimStr (l : List Char) : List Char :=
  ((l.dropWhile Char.isWhitespace).reverse.dropWhile Char.isWhitespace).reverse

/-- The service `validateIfMatch`: a missing or empty header always
validates (JavaScript falsiness of `''`), the wildcard `*` always
validates, and otherwise some comma-separated, trimmed entry must
equal the current token after stripping `W/` from both sides. -/
def validateIfMatch (ifMatch : Option (List Char)) (doc : Document) : Bool :=
  match ifMatch with
  | none => true
  | some s =>
    if s = [] then true
    else if s = [('*' : Char)] then true
    else
      let currentETag := generateETag doc
      ((splitOnComma s).map trimStr).any
        (fun requested => decide (stripWeak requested = stripWeak currentETag))

/-! ## General lemmas about the change engine -/

theorem applyFastPath_zero (content : List Char) (ch : Change)
    (h : changeMatches content ch = []) :
    applyFastPath content ch = ⟨content, ⟨ch.searchText, ch.replaceText, 0, 0, none⟩⟩ := by
  simp [applyFastPath, h]

theorem applySlowPath_zero (content : List Char) (ch : Change)
    (h : changeMatches content ch = []) :
    applySlowPath content ch = ⟨content, ⟨ch.searchText, ch.replaceText, 0, 0, none⟩⟩ := by
  simp [applySlowPath, eligibleMatches, h]

/-! ## Lemmas about the search engine -/

theorem pushMatches_length_le (doc : Document) (queryLen contextSize maxResults : Nat) :
    ∀ (ps : List Nat) (acc : List SearchMatch), acc.length ≤ maxResults →
      (pushMatches doc queryLen contextSize maxResults ps acc).length ≤ maxResults := by
  intro ps
  induction ps with
  | nil => intro acc h; simpa [pushMatches] using h
  | cons p rest ih =>
    intro acc h
    by_cases hm : maxResults ≤ acc.length
    · simpa [pushMatches, hm] using h
    · have : acc.length + 1 ≤ maxResults := by omega
      simpa [pushMatches, hm] using ih _ (by simpa using this)

theorem searchLoop_length_le (query : List Char) (caseSensitive : Bool)
    (contextSize maxResults : Nat) :
    ∀ (docs : List Document) (acc : List SearchMatch), acc.length ≤ maxResults →
      (searchLoop query caseSensitive contextSize maxResults docs acc).length ≤ maxResults := by
  intro docs
  induction docs with
  | nil => intro acc h; simpa [searchLoop] using h
  | cons doc rest ih =>
    intro acc h
    by_cases hm : maxResults ≤ acc.length
    · simpa [searchLoop, hm] using h
    · simpa [searchLoop, hm] using
        ih _ (pushMatches_length_le doc query.length contextSize maxResults _ acc h)

/-! ## Concrete stores and changes used by witnesses and counterexamples -/

/-- A store holding one document with content `hello world today`. -/
def demoStore1 : StoreState :=
  (createDocument emptyStore (("d1").data)
    { title := ("T1").data, content := ("hello world today").data } (("t1").data)).1

/-- The document stored in `demoStore1`. -/
def demoDoc1 : Document :=
  (createDocument emptyStore (("d1").data)
    { title := ("T1").data, content := ("hello world today").data } (("t1").data)).2

/-- The three-document store of the spec's search scenario. -/
def demoStore3 : StoreState :=
  (createDocument
    ((createDocument demoStore1 (("d2").data)
      { title := ("T2").data, content := ("hello universe tomorrow").data } (("t2").data)).1)
    (("d3").data)
    { title := ("T3").data, content := ("goodbye world yesterday").data } (("t3").data)).1

/-- Change with a search text that does not occur in `abc`. -/
def missChange : Change :=
  { searchText := ("xyz").data, replaceText := ("q").data }

/-- Claim C6: a change whose search text has zero matches (under its
case/whole-word settings) leaves the content byte-identical and
reports `matchesFound = 0`, `replacementsMade = 0`, on the fast path,
on the slow path, and through `applySingleChange`. -/
theorem applySingleChange_zeroMatches_identity (content : List Char) (ch : Change)
    (h : changeMatches content ch = []) :
    applyFastPath content ch = ⟨content, ⟨ch.searchText, ch.replaceText, 0, 0, none⟩⟩ ∧
    applySlowPath content ch = ⟨content, ⟨ch.searchText, ch.replaceText, 0, 0, none⟩⟩ ∧
    applySingleChange content ch = ⟨content, ⟨ch.searchText, ch.replaceText, 0, 0, none⟩⟩ := by
  refine ⟨applyFastPath_zero _ _ h, applySlowPath_zero _ _ h, ?_⟩
  by_cases hu : usesAdvancedTargeting ch <;>
    simp [applySingleChange, hu, applyFastPath_zero _ _ h, applySlowPath_zero _ _ h]

/-- Witness for C6 at the concrete input `abc` / `xyz`. -/
theorem applySingleChange_zeroMatches_identity_witness :
    changeMatches (("abc").data) missChange = [] ∧
    applySingleChange (("abc").data) missChange =
      ⟨("abc").data, ⟨missChange.searchText, missChange.replaceText, 0, 0, none⟩⟩ :=
  ⟨by decide, (applySingleChange_zeroMatches_identity (("abc").data) missChange (by decide)).2.2⟩

/-- Claim C8: every search returns at most `maxResults` results,
`totalMatches` equals the length of the result list, and
`documentsSearched` is the size of the pruned candidate set (index
lookup or supplied ids), not the total number of stored documents. -/
theorem search_result_bounds (s : StoreState) (q : SearchQuery) :
    (search s q).results.length ≤ q.maxResults ∧
    (search s q).totalMatches = (search s q).results.length ∧
    (search s q).documentsSearched =
      (getCandidateDocuments s q.query q.documentIds).length := by
  refine ⟨?_, rfl, rfl⟩
  exact searchLoop_length_le q.query q.caseSensitive q.contextSize q.maxResults _ []
    (by simp)

/-- Claim C5 (amended): when a NON-EMPTY `documentIds` list is
supplied, the candidate set is exactly the documents it identifies
(no index lookup: the result does not depend on the word index). -/
theorem getCandidateDocuments_suppliedIds (s : StoreState) (query : List Char)
    (ids : List (List Char)) (h : ids ≠ []) :
    getCandidateDocuments s query (some ids) = getDocumentsByIds s ids := by
  match ids, h with
  | i :: is, _ => simp [getCandidateDocuments]

/-- Counterexample for C5 as stated: with a SUPPLIED BUT EMPTY
`documentIds` list the code falls through to the index (the guard is
`documentIds && documentIds.length > 0`), so the candidates are not
the zero documents identified by the list. -/
theorem getCandidateDocuments_emptyIds_cx :
    getCandidateDocuments demoStore1 (("hello").data) (some []) ≠
      getDocumentsByIds demoStore1 [] := by
  decide

/-- Witness for C5 at a concrete store and id list. -/
theorem getCandidateDocuments_suppliedIds_witness :
    [("d1").data] ≠ ([] : List (List Char)) ∧
    getCandidateDocuments demoStore1 (("zzz").data) (some [("d1").data]) =
      getDocumentsByIds demoStore1 [("d1").data] :=
  ⟨by decide, getCandidateDocuments_suppliedIds demoStore1 (("zzz").data) [("d1").data]
    (by decide)⟩

/-- Claim C10: a patch supplying no fields still bumps `version` by
exactly one and stamps `updatedAt`, while everything else — the
document's id, title, content, metadata and `createdAt`, the other
documents, and the inverted index — is left unchanged. -/
theorem patchDocument_emptyPatch_frame (s : StoreState) (id now : List Char) (doc : Document)
    (h : docFind s id = some doc) :
    patchDocument s id {} now =
      (⟨s.documents.map (fun d =>
          if d.id = id then { doc with updatedAt := now, version := doc.version + 1 } else d),
        s.wordIndex⟩,
       some { doc with updatedAt := now, version := doc.version + 1 }) := by
  simp [patchDocument, h, patchTitleChanged, applyDocPatch]

/-- Witness for C10 at the concrete one-document store. -/
theorem patchDocument_emptyPatch_frame_witness :
    docFind demoStore1 (("d1").data) = some demoDoc1 ∧
    patchDocument demoStore1 (("d1").data) {} (("t9").data) =
      (⟨demoStore1.documents.map (fun d =>
          if d.id = ("d1").data then
            { demoDoc1 with updatedAt := ("t9").data, version := demoDoc1.version + 1 }
          else d),
        demoStore1.wordIndex⟩,
       some { demoDoc1 with updatedAt := ("t9").data, version := demoDoc1.version + 1 }) :=
  ⟨by decide, patchDocument_emptyPatch_frame demoStore1 (("d1").data) (("t9").data) demoDoc1
    (by decide)⟩

/-! ## Lemmas about posting-list intersection -/

theorem mem_intersectPostings {d : List Char} :
    ∀ (l : List (List (List Char))) (r : List (List Char)),
      d ∈ intersectPostings r l → d ∈ r ∧ ∀ ps ∈ l, d ∈ ps := by
  intro l
  induction l with
  | nil => intro r h; simpa [intersectPostings] using h
  | cons ps rest ih =>
    intro r h
    by_cases he : r.isEmpty
    · simp [intersectPostings, he] at h
      simp [List.isEmpty_iff.mp he] at h
    · simp only [intersectPostings, he, Bool.false_eq_true, if_false] at h
      obtain ⟨hmem, hall⟩ := ih _ h
      simp only [List.mem_filter, decide_eq_true_eq] at hmem
      exact ⟨hmem.1, by
        intro q hq
        rcases List.mem_cons.mp hq with rfl | hq
        · exact hmem.2
        · exact hall _ hq⟩

/-- Claim C7: `findDocumentsByWords` on the empty list is empty; on a
single word it is the single-word lookup; its result on a pair of
words is contained in the result on each word alone; and any word list
containing a word with no postings yields the empty result. -/
theorem findDocumentsByWords_spec :
    (∀ s : StoreState, findDocumentsByWords s [] = []) ∧
    (∀ (s : StoreState) (w : List Char),
      findDocumentsByWords s [w] = findDocumentsByWord s w) ∧
    (∀ (s : StoreState) (w1 w2 d : List Char),
      d ∈ findDocumentsByWords s [w1, w2] →
      d ∈ findDocumentsByWords s [w1] ∧ d ∈ findDocumentsByWords s [w2]) ∧
    (∀ (s : StoreState) (ws : List (List Char)) (w : List Char),
      w ∈ ws → findDocumentsByWord s w = [] → findDocumentsByWords s ws = []) := by
  refine ⟨fun s => rfl, fun s w => rfl, ?_, ?_⟩
  · intro s w1 w2 d h
    cases hP1 : idxLookup s.wordIndex (lowerStr w1) with
    | nil =>
      exfalso
      simp [findDocumentsByWords, hP1] at h
      have hb := List.length_filter_le (fun ps : List (List Char) => decide (0 < ps.length))
        [idxLookup s.wordIndex (lowerStr w2)]
      simp only [List.length_cons, List.length_nil] at hb
      omega
    | cons a1 t1 =>
      cases hP2 : idxLookup s.wordIndex (lowerStr w2) with
      | nil =>
        exfalso
        simp [findDocumentsByWords, hP1, hP2] at h
      | cons a2 t2 =>
        by_cases hle : t1.length ≤ t2.length
        · simp [findDocumentsByWords, hP1, hP2, List.insertionSort, List.orderedInsert,
            hle, intersectPostings, List.mem_filter] at h
          simpa [findDocumentsByWords, findDocumentsByWord, hP1, hP2] using h
        · simp [findDocumentsByWords, hP1, hP2, List.insertionSort, List.orderedInsert,
            hle, intersectPostings, List.mem_filter] at h
          simpa [findDocumentsByWords, findDocumentsByWord, hP1, hP2, and_comm] using h
  · intro s ws w hw h0
    match ws, hw with
    | [w'], hw =>
      have hww : w = w' := List.mem_singleton.mp hw
      subst hww
      simpa [findDocumentsByWords] using h0
    | a :: b :: rest, hw =>
      have hx : ([] : List (List Char)) ∈
          (a :: b :: rest).map (fun u => idxLookup s.wordIndex (lowerStr u)) := by
        refine List.mem_map.mpr ⟨w, hw, ?_⟩
        simpa [findDocumentsByWord] using h0
      have hlt :
          (((a :: b :: rest).map (fun u => idxLookup s.wordIndex (lowerStr u))).filter
            (fun ps => decide (0 < ps.length))).length <
          ((a :: b :: rest).map (fun u => idxLookup s.wordIndex (lowerStr u))).length := by
        refine List.length_filter_lt_length_iff_exists.mpr ⟨[], hx, ?_⟩
        simp
      simp only [List.length_map] at hlt
      simp only [findDocumentsByWords, List.map_cons]
      split
      · rfl
      · exfalso
        rename_i hcond
        simp only [List.map_cons] at hlt
        simp only [ne_eq, Decidable.not_not] at hcond
        omega

/-- Witness for C7's hypotheses at a concrete store: the word
`nosuch` has no postings in `demoStore3`, so the two-word query
containing it resolves to the empty id set. -/
theorem findDocumentsByWords_spec_witness :
    (("nosuch").data ∈ [("hello").data, ("nosuch").data]) ∧
    findDocumentsByWord demoStore3 (("nosuch").data) = [] ∧
    findDocumentsByWords demoStore3 [("hello").data, ("nosuch").data] = [] :=
  ⟨by decide, by decide,
    findDocumentsByWords_spec.2.2.2 demoStore3 [("hello").data, ("nosuch").data]
      (("nosuch").data) (by decide) (by decide)⟩

/-! ## Lemmas about the concurrency token -/

theorem digitCh_toNat_lt10 : ∀ d, d < 10 → (digitCh d).toNat = 48 + d := by decide

theorem digitCh_isDigit : ∀ d, d < 10 → (digitCh d).isDigit = true := by decide

theorem digitCh_ne_comma : ∀ d, d < 16 → digitCh d ≠ ',' := by decide

/-- Little-endian decimal value, recovering `decReprAux`. -/
def decValLE : List Char → Nat
  | [] => 0
  | c :: rest => (c.toNat - 48) + 10 * decValLE rest

theorem decValLE_decReprAux : ∀ n, decValLE (decReprAux n) = n := by
  intro n
  induction n using Nat.strong_induction_on with
  | _ n ih =>
    rw [decReprAux]
    by_cases h : n = 0
    · simp [h, decValLE]
    · simp only [h, if_false, decValLE]
      rw [ih (n / 10) (Nat.div_lt_self (Nat.pos_of_ne_zero h) (by omega))]
      rw [digitCh_toNat_lt10 (n % 10) (Nat.mod_lt _ (by omega))]
      omega

theorem decRepr_inj {a b : Nat} (h : decRepr a = decRepr b) : a = b := by
  have hv : ∀ n, decValLE (decRepr n).reverse = n := by
    intro n
    by_cases hn : n = 0
    · subst hn; rfl
    · simp only [decRepr, hn, if_false, List.reverse_reverse]
      exact decValLE_decReprAux n
  have := congrArg (fun l => decValLE l.reverse) h
  simpa [hv] using this

theorem decReprAux_digits : ∀ n, ∀ c ∈ decReprAux n, c.isDigit = true := by
  intro n
  induction n using Nat.strong_induction_on with
  | _ n ih =>
    intro c hc
    rw [decReprAux] at hc
    by_cases h : n = 0
    · simp [h] at hc
    · simp only [h, if_false, List.mem_cons] at hc
      rcases hc with rfl | hc
      · exact digitCh_isDigit _ (Nat.mod_lt _ (by omega))
      · exact ih (n / 10) (Nat.div_lt_self (Nat.pos_of_ne_zero h) (by omega)) c hc

theorem decRepr_digits (n : Nat) : ∀ c ∈ decRepr n, c.isDigit = true := by
  intro c hc
  by_cases h : n = 0
  · simp [decRepr, h] at hc
    subst hc; decide
  · simp only [decRepr, h, if_false, List.mem_reverse] at hc
    exact decReprAux_digits n c hc

theorem isDigit_ne_dash {c : Char} (h : c.isDigit = true) : c ≠ '-' := by
  intro hc
  subst hc
  exact absurd h (by decide)

/-- Cancellation of a digit-run prefix before a dash separator. -/
theorem digits_dash_cancel :
    ∀ (a b x y : List Char), (∀ c ∈ a, c.isDigit = true) → (∀ c ∈ b, c.isDigit = true) →
      a ++ '-' :: x = b ++ '-' :: y → a = b ∧ x = y := by
  intro a
  induction a with
  | nil =>
    intro b x y _ hb h
    cases b with
    | nil => simpa using h
    | cons c b' =>
      exfalso
      simp only [List.nil_append, List.cons_append] at h
      injection h with h1 _
      exact isDigit_ne_dash (hb c (List.mem_cons_self c b')) h1.symm
  | cons c a' ih =>
    intro b x y ha hb h
    cases b with
    | nil =>
      exfalso
      simp only [List.cons_append, List.nil_append] at h
      injection h with h1 _
      exact isDigit_ne_dash (ha c (List.mem_cons_self c a')) h1
    | cons c2 b' =>
      simp only [List.cons_append] at h
      injection h with h1 h2
      obtain ⟨hab, hxy⟩ := ih b' x y (fun u hu => ha u (List.mem_cons_of_mem c hu))
        (fun u hu => hb u (List.mem_cons_of_mem c2 hu)) h2
      exact ⟨by rw [h1, hab], hxy⟩

theorem generateETag_version_inj (d1 d2 : Document)
    (h : generateETag d1 = generateETag d2) : d1.version = d2.version := by
  simp only [generateETag] at h
  injection h with h1 h
  injection h with h2 h
  exact decRepr_inj (digits_dash_cancel _ _ _ _ (decRepr_digits _) (decRepr_digits _) h).1

theorem digest8_ne_comma (l : List Char) : ∀ c ∈ digest8 l, c ≠ ',' := by
  intro c hc
  simp only [digest8, List.mem_map, List.mem_range] at hc
  obtain ⟨k, _, rfl⟩ := hc
  exact digitCh_ne_comma _ (Nat.mod_lt _ (by omega))

theorem generateETag_ne_comma (d : Document) : ∀ c ∈ generateETag d, c ≠ ',' := by
  intro c hc
  simp only [generateETag, List.mem_cons, List.mem_append, List.mem_singleton,
    List.not_mem_nil, or_false] at hc
  rcases hc with rfl | rfl | hc | rfl | hc | rfl
  · decide
  · decide
  · exact fun he => absurd ((he ▸ decRepr_digits d.version c hc) : (',' : Char).isDigit = true)
      (by decide)
  · decide
  · exact digest8_ne_comma _ c hc
  · decide

theorem splitOnComma_eq_single (l : List Char) (h : (',' : Char) ∉ l) :
    splitOnComma l = [l] := by
  induction l with
  | nil => rfl
  | cons c rest ih =>
    have hc : ¬(c = ',') := fun hcc => h (hcc ▸ List.mem_cons_self c rest)
    have hr : (',' : Char) ∉ rest := fun hm => h (List.mem_cons_of_mem _ hm)
    simp [splitOnComma, hc, ih hr]

/-- Every token produced by `generateETag` has the quoted shape. -/
theorem generateETag_eq_quoted (doc : Document) :
    generateETag doc =
      '"' :: (('v' :: (decRepr doc.version ++ '-' ::
        digest8 (doc.id ++ '-' :: (decRepr doc.version ++ '-' :: doc.updatedAt)))) ++ ['"']) := by
  simp [generateETag]

theorem trimStr_quoted (mid : List Char) :
    trimStr ('"' :: (mid ++ ['"'])) = '"' :: (mid ++ ['"']) := by
  unfold trimStr
  rw [List.dropWhile_cons]
  have hq : ('"' : Char).isWhitespace = false := by decide
  simp only [hq, Bool.false_eq_true, if_false]
  have h2 : ('"' :: (mid ++ ['"'])).reverse = '"' :: (('"' :: mid).reverse) := by
    simp
  rw [h2, List.dropWhile_cons]
  simp only [hq, Bool.false_eq_true, if_false]
  simp

theorem stripWeak_quote (t : List Char) : stripWeak ('"' :: t) = '"' :: t := by
  unfold stripWeak
  rw [if_neg]
  intro h
  rw [List.take_succ_cons] at h
  injection h with h1 _
  exact absurd h1 (by decide)

/-- Claim C3: a token generated from a document always validates
against that document, and the token of version `N` never validates
against the same document after one successful mutation (version
`N + 1`). -/
theorem etag_validate_roundtrip :
    (∀ doc : Document, validateIfMatch (some (generateETag doc)) doc = true) ∧
    (∀ d1 d2 : Document, d2.id = d1.id → d2.version = d1.version + 1 →
      validateIfMatch (some (generateETag d1)) d2 = false) := by
  have hne_nil : ∀ d : Document, generateETag d ≠ [] := by
    intro d h
    rw [generateETag_eq_quoted] at h
    exact List.cons_ne_nil _ _ h
  have hne_star : ∀ d : Document, generateETag d ≠ [('*' : Char)] := by
    intro d h
    rw [generateETag_eq_quoted] at h
    injection h with h1 _
    exact absurd h1 (by decide)
  have hsplit : ∀ d : Document, splitOnComma (generateETag d) = [generateETag d] := by
    intro d
    exact splitOnComma_eq_single _ (fun hmem => generateETag_ne_comma d ',' hmem rfl)
  have htrim : ∀ d : Document, trimStr (generateETag d) = generateETag d := by
    intro d
    rw [generateETag_eq_quoted]
    exact trimStr_quoted _
  have hstrip : ∀ d : Document, stripWeak (generateETag d) = generateETag d := by
    intro d
    rw [generateETag_eq_quoted]
    exact stripWeak_quote _
  constructor
  · intro doc
    simp only [validateIfMatch]
    rw [if_neg (hne_nil doc), if_neg (hne_star doc), hsplit doc]
    simp [htrim doc, hstrip doc]
  · intro d1 d2 _ hv
    have hne : generateETag d1 ≠ generateETag d2 := by
      intro h
      have := generateETag_version_inj d1 d2 h
      omega
    simp only [validateIfMatch]
    rw [if_neg (hne_nil d1), if_neg (hne_star d1), hsplit d1]
    simp [htrim d1, hstrip d1, hstrip d2, hne]

/-- Witness for C3 at a concrete document and its mutated successor. -/
theorem etag_validate_roundtrip_witness :
    validateIfMatch (some (generateETag demoDoc1)) demoDoc1 = true ∧
    ({ demoDoc1 with version := demoDoc1.version + 1, updatedAt := ("t9").data } :
        Document).id = demoDoc1.id ∧
    ({ demoDoc1 with version := demoDoc1.version + 1, updatedAt := ("t9").data } :
        Document).version = demoDoc1.version + 1 ∧
    validateIfMatch (some (generateETag demoDoc1))
      { demoDoc1 with version := demoDoc1.version + 1, updatedAt := ("t9").data } = false :=
  ⟨etag_validate_roundtrip.1 demoDoc1, rfl, rfl,
    etag_validate_roundtrip.2 demoDoc1
      { demoDoc1 with version := demoDoc1.version + 1, updatedAt := ("t9").data } rfl rfl⟩

/-! ## Lemmas about the match scan -/

theorem matchesAt_le {content pat : List Char} {mc mww : Bool} {i : Nat}
    (h : matchesAt content pat mc mww i = true) : i + pat.length ≤ content.length := by
  simp only [matchesAt, Bool.and_eq_true, literalMatchAt, decide_eq_true_eq] at h
  exact h.1.1

theorem scanMatches_mem (content pat : List Char) (mc mww : Bool) :
    ∀ fuel i, ∀ p ∈ scanMatches content pat mc mww fuel i,
      i ≤ p ∧ matchesAt content pat mc mww p = true := by
  intro fuel
  induction fuel with
  | zero => intro i p hp; simp [scanMatches] at hp
  | succ fuel ih =>
    intro i p hp
    by_cases hm : matchesAt content pat mc mww i = true
    · simp only [scanMatches, hm, if_true, List.mem_cons] at hp
      rcases hp with rfl | hp
      · exact ⟨le_refl _, hm⟩
      · have := ih _ p hp
        exact ⟨by omega, this.2⟩
    · simp only [scanMatches, hm, if_false] at hp
      by_cases hlen : i + 1 ≤ content.length
      · simp only [hlen, if_true] at hp
        have := ih _ p hp
        exact ⟨by omega, this.2⟩
      · simp [hlen] at hp

theorem scanMatches_pairwise (content pat : List Char) (mc mww : Bool) :
    ∀ fuel i, List.Pairwise (fun a b => a + max 1 pat.length ≤ b)
      (scanMatches content pat mc mww fuel i) := by
  intro fuel
  induction fuel with
  | zero => intro i; simp [scanMatches]
  | succ fuel ih =>
    intro i
    by_cases hm : matchesAt content pat mc mww i = true
    · simp only [scanMatches, hm, if_true]
      refine List.pairwise_cons.mpr ⟨?_, ih _⟩
      intro p hp
      have := (scanMatches_mem content pat mc mww fuel _ p hp).1
      omega
    · simp only [scanMatches, hm, if_false]
      by_cases hlen : i + 1 ≤ content.length
      · simpa [hlen] using ih (i + 1)
      · simp [hlen]

theorem findAllMatches_pairwise (content pat : List Char) (mc mww : Bool) :
    List.Pairwise (fun a b => a + max 1 pat.length ≤ b)
      (findAllMatches content pat mc mww) :=
  scanMatches_pairwise content pat mc mww _ 0

theorem findAllMatches_mem (content pat : List Char) (mc mww : Bool) :
    ∀ p ∈ findAllMatches content pat mc mww, p + pat.length ≤ content.length := by
  intro p hp
  exact matchesAt_le (scanMatches_mem content pat mc mww _ 0 p hp).2

/-! ## Lemmas about replacement splicing -/

theorem expandRepl_eq_self (orig : List Char) (ms me : Nat) :
    ∀ r, hasSpecialDollar r = false → expandRepl orig ms me r = r := by
  intro r
  induction r with
  | nil => intro _; rfl
  | cons c rest ih =>
    intro h
    cases rest with
    | nil => rfl
    | cons c2 rest2 =>
      have hdef : hasSpecialDollar (c :: c2 :: rest2) =
          ((decide (c = '$') &&
            (decide (c2 = '$') || decide (c2 = '&') || decide (c2.toNat = 96) ||
              decide (c2 = '\''))) || hasSpecialDollar (c2 :: rest2)) := rfl
      rw [hdef] at h
      simp only [Bool.or_eq_false_iff] at h
      have h2 : hasSpecialDollar (c2 :: rest2) = false := h.2
      by_cases hc : c = '$'
      · subst hc
        have hsp : (decide (c2 = '$') || decide (c2 = '&') || decide (c2.toNat = 96) ||
            decide (c2 = '\'')) = false := by
          have := h.1
          rw [decide_eq_true rfl, Bool.true_and] at this
          exact this
        simp only [Bool.or_eq_false_iff, decide_eq_false_iff_not] at hsp
        obtain ⟨⟨⟨hA, hB⟩, hC⟩, hD⟩ := hsp
        simp only [expandRepl, if_pos rfl, if_neg hA, if_neg hB, if_neg hC, if_neg hD]
        rw [ih h2]
        simp
      · simp only [expandRepl, if_neg hc]
        rw [ih h2]

theorem jsReplaceGo_eq_lit (orig r : List Char) (L : Nat)
    (hr : hasSpecialDollar r = false) :
    ∀ (ps : List Nat) (cur : Nat), jsReplaceGo orig r L cur ps = litReplaceGo orig r L cur ps := by
  intro ps
  induction ps with
  | nil => intro cur; rfl
  | cons i rest ih =>
    intro cur
    simp only [jsReplaceGo, litReplaceGo, expandRepl_eq_self orig i (i + L) r hr, ih]

theorem spliceDesc_append (r : List Char) (L : Nat) :
    ∀ (l1 l2 : List Nat) (content : List Char),
      spliceDesc r L content (l1 ++ l2) = spliceDesc r L (spliceDesc r L content l1) l2 := by
  intro l1
  induction l1 with
  | nil => intro l2 content; rfl
  | cons i rest ih => intro l2 content; exact ih l2 (spliceAt content r i L)

/-- Splicing the replacement at a descending list of disjoint in-bounds
positions equals the left-to-right reconstruction at the same
positions taken ascending. -/
theorem spliceDesc_reverse_eq (r : List Char) (L : Nat) (orig : List Char) :
    ∀ (ps : List Nat) (cur : Nat),
      List.Pairwise (fun a b => a + L ≤ b) ps →
      (∀ p ∈ ps, cur ≤ p ∧ p + L ≤ orig.length) →
      spliceDesc r L orig ps.reverse = orig.take cur ++ litReplaceGo orig r L cur ps := by
  intro ps
  induction ps with
  | nil =>
    intro cur _ _
    simp [spliceDesc, litReplaceGo]
  | cons i rest ih =>
    intro cur hpw hb
    have hib : cur ≤ i ∧ i + L ≤ orig.length := hb i (List.mem_cons_self i rest)
    have hrest : ∀ p ∈ rest, i + L ≤ p ∧ p + L ≤ orig.length := by
      intro p hp
      exact ⟨(List.pairwise_cons.mp hpw).1 p hp, (hb p (List.mem_cons_of_mem i hp)).2⟩
    have hM := ih (i + L) (List.pairwise_cons.mp hpw).2 hrest
    have htakelen : (orig.take (i + L)).length = i + L := by
      rw [List.length_take]
      omega
    rw [List.reverse_cons, spliceDesc_append, hM]
    show spliceAt (orig.take (i + L) ++ litReplaceGo orig r L (i + L) rest) r i L = _
    unfold spliceAt
    have htake : (orig.take (i + L) ++ litReplaceGo orig r L (i + L) rest).take i =
        orig.take i := by
      rw [List.take_append_of_le_length (by omega), List.take_take]
      congr 1
      omega
    have hdrop : (orig.take (i + L) ++ litReplaceGo orig r L (i + L) rest).drop (i + L) =
        litReplaceGo orig r L (i + L) rest := List.drop_left' htakelen
    rw [htake, hdrop]
    show _ = orig.take cur ++ litReplaceGo orig r L cur (i :: rest)
    simp only [litReplaceGo]
    rw [← List.append_assoc, ← List.append_assoc]
    congr 2
    have : orig.take cur ++ (orig.drop cur).take (i - cur) = orig.take (cur + (i - cur)) :=
      (List.take_add orig cur (i - cur)).symm
    rw [this]
    congr 1
    omega

theorem sortDescending_eq_reverse (l : List Nat) (h : List.Pairwise (· < ·) l) :
    sortDescending l = l.reverse := by
  refine List.eq_of_perm_of_sorted (r := (· ≥ ·)) ?_ ?_ ?_
  · exact ((List.perm_insertionSort _ l).trans (List.reverse_perm l).symm)
  · exact List.sorted_insertionSort _ l
  · exact List.pairwise_reverse.mpr (h.imp (fun hab => le_of_lt hab))

/-! ## Slow-path characterisation lemmas -/

theorem eligibleMatches_no_constraints (content : List Char) (ch : Change)
    (hsi : ch.startIndex = none) (hei : ch.endIndex = none)
    (hbc : ch.beforeContext = none) (hac : ch.afterContext = none) :
    eligibleMatches content ch = changeMatches content ch := by
  unfold eligibleMatches
  rw [List.filter_eq_self]
  intro a _
  simp [isInRange, validateContext, hsi, hei, hbc, hac]

theorem eligibleMatches_pairwise_gap (content : List Char) (ch : Change)
    (hst : ch.searchText ≠ []) :
    List.Pairwise (fun a b => a + ch.searchText.length ≤ b)
      (eligibleMatches content ch) := by
  have hL : 1 ≤ ch.searchText.length := by
    cases hs : ch.searchText with
    | nil => exact absurd hs hst
    | cons a l => simp
  have hmax : max 1 ch.searchText.length = ch.searchText.length := Nat.max_eq_right hL
  have := (findAllMatches_pairwise content ch.searchText ch.matchCase ch.matchWholeWord).filter
    (fun i => isInRange i ch.searchText.length ch.startIndex ch.endIndex &&
      validateContext content i ch.searchText.length ch.beforeContext ch.afterContext)
  rw [hmax] at this
  exact this

theorem eligibleMatches_pairwise_lt (content : List Char) (ch : Change)
    (hst : ch.searchText ≠ []) :
    List.Pairwise (· < ·) (eligibleMatches content ch) := by
  have hL : 1 ≤ ch.searchText.length := by
    cases hs : ch.searchText with
    | nil => exact absurd hs hst
    | cons a l => simp
  exact (eligibleMatches_pairwise_gap content ch hst).imp (fun h => by omega)

theorem eligibleMatches_bounds (content : List Char) (ch : Change) :
    ∀ p ∈ eligibleMatches content ch, 0 ≤ p ∧ p + ch.searchText.length ≤ content.length := by
  intro p hp
  have hm : p ∈ changeMatches content ch := List.mem_of_mem_filter hp
  exact ⟨Nat.zero_le p, findAllMatches_mem content ch.searchText ch.matchCase ch.matchWholeWord p hm⟩

/-- When the selection step keeps the whole eligible list, the slow
path replaces every eligible match left to right, reports the
eligible count, and returns the eligible positions ascending. -/
theorem applySlowPath_selected_all (content : List Char) (ch : Change)
    (hst : ch.searchText ≠ [])
    (hsel : selectMatches ch (eligibleMatches content ch) = eligibleMatches content ch) :
    (applySlowPath content ch).newContent =
      litReplaceGo content ch.replaceText ch.searchText.length 0 (eligibleMatches content ch) ∧
    (applySlowPath content ch).result.matchesFound = (changeMatches content ch).length ∧
    (applySlowPath content ch).result.replacementsMade =
      (eligibleMatches content ch).length ∧
    (applySlowPath content ch).result.positions =
      (if eligibleMatches content ch = [] then none
       else some (eligibleMatches content ch)) := by
  by_cases hel : eligibleMatches content ch = []
  · simp [applySlowPath, hel, litReplaceGo]
  · have hemp : (eligibleMatches content ch).isEmpty = false := by
      simp [List.isEmpty_eq_false, hel]
    have hsort : sortDescending (selectMatches ch (eligibleMatches content ch)) =
        (eligibleMatches content ch).reverse := by
      rw [hsel]
      exact sortDescending_eq_reverse _ (eligibleMatches_pairwise_lt content ch hst)
    have hsplice : spliceDesc ch.replaceText ch.searchText.length content
        (eligibleMatches content ch).reverse =
        litReplaceGo content ch.replaceText ch.searchText.length 0
          (eligibleMatches content ch) := by
      have := spliceDesc_reverse_eq ch.replaceText ch.searchText.length content
        (eligibleMatches content ch) 0 (eligibleMatches_pairwise_gap content ch hst)
        (eligibleMatches_bounds content ch)
      simpa using this
    simp only [applySlowPath, hemp, Bool.false_eq_true, if_false, hsort, hsplice,
      List.reverse_reverse, List.length_reverse]
    simp [List.isEmpty_eq_false, hel]

/-- Claim C1 (amended): with `replaceAll = true` and no range or
context constraint, the fast path and the slow path produce the same
new content, `matchesFound` and `replacementsMade` for every content
and non-empty search text, PROVIDED the replacement text contains none
of the dollar substitution sequences of `String.prototype.replace`
(`$$`, `$&`, dollar-backquote, `$'`), which the fast path's native
`replace` expands while the slow path splices literally. -/
theorem fastPath_replaceAll_equiv_slowPath (content : List Char) (ch : Change)
    (hra : ch.replaceAll = true) (hsi : ch.startIndex = none) (hei : ch.endIndex = none)
    (hbc : ch.beforeContext = none) (hac : ch.afterContext = none)
    (hst : ch.searchText ≠ []) (hrep : hasSpecialDollar ch.replaceText = false) :
    (applyFastPath content ch).newContent = (applySlowPath content ch).newContent ∧
    (applyFastPath content ch).result.matchesFound =
      (applySlowPath content ch).result.matchesFound ∧
    (applyFastPath content ch).result.replacementsMade =
      (applySlowPath content ch).result.replacementsMade := by
  have hel := eligibleMatches_no_constraints content ch hsi hei hbc hac
  have hsel : selectMatches ch (eligibleMatches content ch) = eligibleMatches content ch := by
    simp [selectMatches, hsi, hei, hra]
  have hall := applySlowPath_selected_all content ch hst hsel
  by_cases hms : changeMatches content ch = []
  · rw [applyFastPath_zero _ _ hms, applySlowPath_zero _ _ hms]
    simp
  · have hlen : ¬((changeMatches content ch).length = 0) := by
      simpa [List.length_eq_zero] using hms
    have hfast : applyFastPath content ch =
        ⟨jsReplace content ch.replaceText ch.searchText.length (changeMatches content ch),
         ⟨ch.searchText, ch.replaceText, (changeMatches content ch).length,
          (changeMatches content ch).length, none⟩⟩ := by
      simp [applyFastPath, hlen, hra]
    refine ⟨?_, ?_, ?_⟩
    · rw [hfast, hall.1, hel]
      exact jsReplaceGo_eq_lit content ch.replaceText ch.searchText.length hrep
        (changeMatches content ch) 0
    · rw [hfast, hall.2.1]
    · rw [hfast, hall.2.2.1, hel]

/-- Change used by the C1 counterexample: the replacement text
contains the special sequence `$&`. -/
def dollarChange : Change :=
  { searchText := ("a").data, replaceText := ("$&b").data }

/-- Counterexample for C1 as stated: for content `a`, search text `a`
and replacement `$&b`, the fast path's native `replace` expands `$&`
to the matched text (yielding `ab`) while the slow path splices
the replacement literally (yielding the three characters dollar,
ampersand, `b`), so the two paths disagree on the new content. -/
theorem fastPath_dollar_cx :
    (applyFastPath (("a").data) dollarChange).newContent ≠
      (applySlowPath (("a").data) dollarChange).newContent := by
  decide

/-- Plain change of the spec's first scenario. -/
def plainChange : Change :=
  { searchText := ("foo").data, replaceText := ("qux").data }

/-- Witness for C1 at the concrete scenario content. -/
theorem fastPath_replaceAll_equiv_slowPath_witness :
    plainChange.searchText ≠ [] ∧
    hasSpecialDollar plainChange.replaceText = false ∧
    ((applyFastPath (("foo bar foo baz foo").data) plainChange).newContent =
      (applySlowPath (("foo bar foo baz foo").data) plainChange).newContent ∧
     (applyFastPath (("foo bar foo baz foo").data) plainChange).result.matchesFound =
      (applySlowPath (("foo bar foo baz foo").data) plainChange).result.matchesFound ∧
     (applyFastPath (("foo bar foo baz foo").data) plainChange).result.replacementsMade =
      (applySlowPath (("foo bar foo baz foo").data) plainChange).result.replacementsMade) :=
  ⟨by decide, by decide,
    fastPath_replaceAll_equiv_slowPath (("foo bar foo baz foo").data) plainChange
      rfl rfl rfl rfl rfl (by decide) (by decide)⟩

/-! ## Singleton and empty selections of the slow path -/

theorem applySlowPath_singleton (content : List Char) (ch : Change) (x : Nat)
    (hemp : (eligibleMatches content ch).isEmpty = false)
    (hsel : selectMatches ch (eligibleMatches content ch) = [x]) :
    applySlowPath content ch =
      ⟨spliceAt content ch.replaceText x ch.searchText.length,
       ⟨ch.searchText, ch.replaceText, (changeMatches content ch).length, 1, some [x]⟩⟩ := by
  simp only [applySlowPath, hemp, Bool.false_eq_true, if_false, hsel]
  rfl

theorem applySlowPath_selected_none (content : List Char) (ch : Change)
    (hsel : selectMatches ch (eligibleMatches content ch) = []) :
    applySlowPath content ch =
      ⟨content, ⟨ch.searchText, ch.replaceText, (changeMatches content ch).length, 0,
        none⟩⟩ := by
  by_cases hel : (eligibleMatches content ch).isEmpty
  · simp [applySlowPath, hel]
  · simp only [applySlowPath, Bool.not_eq_true] at hel ⊢
    simp only [hel, Bool.false_eq_true, if_false, hsel]
    rfl

theorem selectMatches_range (ch : Change) (el : List Nat)
    (hrange : (ch.startIndex.isSome || ch.endIndex.isSome) = true) :
    selectMatches ch el = el := by
  simp [selectMatches, hrange]

theorem selectMatches_occurrence_pos (ch : Change) (el : List Nat) (o : Int)
    (hsi : ch.startIndex = none) (hei : ch.endIndex = none) (hra : ch.replaceAll = false)
    (hocc : ch.occurrence = some o) (hpos : 0 < o) :
    selectMatches ch el =
      (if o ≤ (el.length : Int) then [el.getD (o.toNat - 1) 0] else []) := by
  simp [selectMatches, hsi, hei, hra, hocc, hpos]

theorem selectMatches_first (ch : Change) (el : List Nat)
    (hsi : ch.startIndex = none) (hei : ch.endIndex = none) (hra : ch.replaceAll = false)
    (hocc : ch.occurrence = none ∨ ∃ o : Int, ch.occurrence = some o ∧ o ≤ 0) :
    selectMatches ch el = el.take 1 := by
  rcases hocc with hocc | ⟨o, hocc, hno⟩
  · simp [selectMatches, hsi, hei, hra, hocc]
  · have : ¬((0 : Int) < o) := by omega
    simp [selectMatches, hsi, hei, hra, hocc, this]

/-- Claim C4 (amended): for a change on the slow path — a given range
replaces ALL eligible matches (splicing highest-to-lowest realises the
ascending left-to-right reconstruction); else with `replaceAll=false`
a POSITIVE `occurrence` replaces exactly the so-numbered eligible
match (1-indexed) and an occurrence beyond the eligible count replaces
nothing, while a NON-POSITIVE given occurrence falls through to the
first eligible match; else with `replaceAll=false` the first eligible
match is replaced; and the returned position list is always in
ascending order. -/
theorem applySlowPath_selection_spec (content : List Char) (ch : Change)
    (hslow : usesAdvancedTargeting ch = true) (hst : ch.searchText ≠ []) :
    applySingleChange content ch = applySlowPath content ch ∧
    (∀ ps, (applySlowPath content ch).result.positions = some ps →
      List.Pairwise (· ≤ ·) ps) ∧
    ((ch.startIndex.isSome || ch.endIndex.isSome) = true →
      (applySlowPath content ch).newContent =
        litReplaceGo content ch.replaceText ch.searchText.length 0
          (eligibleMatches content ch) ∧
      (applySlowPath content ch).result.replacementsMade =
        (eligibleMatches content ch).length ∧
      (applySlowPath content ch).result.positions =
        (if eligibleMatches content ch = [] then none
         else some (eligibleMatches content ch))) ∧
    (ch.startIndex = none → ch.endIndex = none → ch.replaceAll = false →
      ∀ o : Int, ch.occurrence = some o → 0 < o →
      ((o ≤ ((eligibleMatches content ch).length : Int) →
        applySlowPath content ch =
          ⟨spliceAt content ch.replaceText
            ((eligibleMatches content ch).getD (o.toNat - 1) 0) ch.searchText.length,
           ⟨ch.searchText, ch.replaceText, (changeMatches content ch).length, 1,
            some [(eligibleMatches content ch).getD (o.toNat - 1) 0]⟩⟩) ∧
       (((eligibleMatches content ch).length : Int) < o →
        applySlowPath content ch =
          ⟨content, ⟨ch.searchText, ch.replaceText, (changeMatches content ch).length, 0,
            none⟩⟩))) ∧
    (ch.startIndex = none → ch.endIndex = none → ch.replaceAll = false →
      (ch.occurrence = none ∨ ∃ o : Int, ch.occurrence = some o ∧ o ≤ 0) →
      eligibleMatches content ch ≠ [] →
      applySlowPath content ch =
        ⟨spliceAt content ch.replaceText ((eligibleMatches content ch).headD 0)
          ch.searchText.length,
         ⟨ch.searchText, ch.replaceText, (changeMatches content ch).length, 1,
          some [(eligibleMatches content ch).headD 0]⟩⟩) := by
  refine ⟨by simp [applySingleChange, hslow], ?_, ?_, ?_, ?_⟩
  · intro ps hps
    by_cases hel : (eligibleMatches content ch).isEmpty
    · simp [applySlowPath, hel] at hps
    · simp only [Bool.not_eq_true] at hel
      simp only [applySlowPath, hel, Bool.false_eq_true, if_false] at hps
      by_cases hs :
          (sortDescending (selectMatches ch (eligibleMatches content ch))).reverse.isEmpty
      · simp [hs] at hps
      · simp only [hs, Bool.false_eq_true, if_false, Option.some.injEq] at hps
        subst hps
        refine List.pairwise_reverse.mpr ?_
        exact (List.sorted_insertionSort (· ≥ ·)
          (selectMatches ch (eligibleMatches content ch))).imp (fun h => h)
  · intro hrange
    have hsel := selectMatches_range ch (eligibleMatches content ch) hrange
    have hall := applySlowPath_selected_all content ch hst hsel
    exact ⟨hall.1, hall.2.2.1, hall.2.2.2⟩
  · intro hsi hei hra o hocc hpos
    have hsel := selectMatches_occurrence_pos ch (eligibleMatches content ch) o
      hsi hei hra hocc hpos
    constructor
    · intro hle
      have hne : eligibleMatches content ch ≠ [] := by
        intro hnil
        rw [hnil] at hle
        simp at hle
        omega
      have hemp : (eligibleMatches content ch).isEmpty = false := by
        simpa [List.isEmpty_eq_false] using hne
      exact applySlowPath_singleton content ch _ hemp (by rw [hsel, if_pos hle])
    · intro hlt
      exact applySlowPath_selected_none content ch
        (by rw [hsel, if_neg (by omega)])
  · intro hsi hei hra hocc hne
    have hsel := selectMatches_first ch (eligibleMatches content ch) hsi hei hra hocc
    have hemp : (eligibleMatches content ch).isEmpty = false := by
      simpa [List.isEmpty_eq_false] using hne
    refine applySlowPath_singleton content ch _ hemp ?_
    rw [hsel]
    cases helig : eligibleMatches content ch with
    | nil => exact absurd helig hne
    | cons e tl => simp

/-- Change with `replaceAll=false` and `occurrence=0`. -/
def zeroOccChange : Change :=
  { searchText := ("a").data, replaceText := ("b").data,
    replaceAll := false, occurrence := some 0 }

/-- Counterexample for C4 as stated: `occurrence = 0` is out of range
for 1-indexed selection, so the claim says nothing is replaced; the
code's guard `occurrence > 0` fails and the first-occurrence branch
replaces one match instead. -/
theorem occurrence_zero_replaces_cx :
    (applySingleChange (("a").data) zeroOccChange).result.replacementsMade = 1 ∧
    (applySingleChange (("a").data) zeroOccChange).newContent ≠ ("a").data := by
  decide

/-- Range change of the spec's third scenario. -/
def rangeChange : Change :=
  { searchText := ("foo").data, replaceText := ("XXX").data,
    startIndex := some 8, endIndex := some 15 }

/-- Witness for C4 at the spec's range scenario. -/
theorem applySlowPath_selection_spec_witness :
    usesAdvancedTargeting rangeChange = true ∧
    rangeChange.searchText ≠ [] ∧
    (rangeChange.startIndex.isSome || rangeChange.endIndex.isSome) = true ∧
    ((applySlowPath (("foo bar foo baz foo").data) rangeChange).newContent =
      litReplaceGo (("foo bar foo baz foo").data) rangeChange.replaceText
        rangeChange.searchText.length 0
        (eligibleMatches (("foo bar foo baz foo").data) rangeChange) ∧
     (applySlowPath (("foo bar foo baz foo").data) rangeChange).result.replacementsMade =
      (eligibleMatches (("foo bar foo baz foo").data) rangeChange).length ∧
     (applySlowPath (("foo bar foo baz foo").data) rangeChange).result.positions =
      (if eligibleMatches (("foo bar foo baz foo").data) rangeChange = [] then none
       else some (eligibleMatches (("foo bar foo baz foo").data) rangeChange))) :=
  ⟨by decide, by decide, by decide,
    (applySlowPath_selection_spec (("foo bar foo baz foo").data) rangeChange
      (by decide) (by decide)).2.2.1 (by decide)⟩

/-- Change with a range AND a non-positive occurrence. -/
def zeroOccRangeChange : Change :=
  { searchText := ("a").data, replaceText := ("b").data,
    replaceAll := false, occurrence := some 0, startIndex := some 0 }

/-- Counterexample for C9 as stated: when the change ALSO carries a
character range, the range branch wins and every eligible match is
replaced, so `replacementsMade` is 2 on `aa` although an eligible
match exists — not the single first-match replacement the claim
asserts for every change with a non-positive occurrence. -/
theorem occurrence_nonpositive_range_cx :
    eligibleMatches (("aa").data) zeroOccRangeChange ≠ [] ∧
    (applySingleChange (("aa").data) zeroOccRangeChange).result.replacementsMade = 2 := by
  constructor
  · decide
  · decide

/-- Claim C9 (amended): a change with `replaceAll=false`, a defined
but non-positive `occurrence`, and NO character range, takes the slow
path and replaces exactly the first eligible match (one replacement
whenever an eligible match exists), rather than replacing nothing. -/
theorem occurrence_nonpositive_first (content : List Char) (ch : Change) (o : Int)
    (hra : ch.replaceAll = false) (hocc : ch.occurrence = some o) (ho : o ≤ 0)
    (hsi : ch.startIndex = none) (hei : ch.endIndex = none) :
    usesAdvancedTargeting ch = true ∧
    applySingleChange content ch = applySlowPath content ch ∧
    (eligibleMatches content ch ≠ [] →
      applySlowPath content ch =
        ⟨spliceAt content ch.replaceText ((eligibleMatches content ch).headD 0)
          ch.searchText.length,
         ⟨ch.searchText, ch.replaceText, (changeMatches content ch).length, 1,
          some [(eligibleMatches content ch).headD 0]⟩⟩) := by
  have hslow : usesAdvancedTargeting ch = true := by
    simp [usesAdvancedTargeting, hra, hocc]
  refine ⟨hslow, by simp [applySingleChange, hslow], ?_⟩
  intro hne
  have hemp : (eligibleMatches content ch).isEmpty = false := by
    simpa [List.isEmpty_eq_false] using hne
  have hsel := selectMatches_first ch (eligibleMatches content ch) hsi hei hra
    (Or.inr ⟨o, hocc, ho⟩)
  refine applySlowPath_singleton content ch _ hemp ?_
  rw [hsel]
  cases helig : eligibleMatches content ch with
  | nil => exact absurd helig hne
  | cons e tl => simp

/-- Witness for C9 on the scenario content with occurrence `0`. -/
theorem occurrence_nonpositive_first_witness :
    zeroOccChange.replaceAll = false ∧
    zeroOccChange.occurrence = some 0 ∧
    eligibleMatches (("foo a bar a").data) zeroOccChange ≠ [] ∧
    applySlowPath (("foo a bar a").data) zeroOccChange =
      ⟨spliceAt (("foo a bar a").data) zeroOccChange.replaceText
        ((eligibleMatches (("foo a bar a").data) zeroOccChange).headD 0)
        zeroOccChange.searchText.length,
       ⟨zeroOccChange.searchText, zeroOccChange.replaceText,
        (changeMatches (("foo a bar a").data) zeroOccChange).length, 1,
        some [(eligibleMatches (("foo a bar a").data) zeroOccChange).headD 0]⟩⟩ :=
  ⟨rfl, rfl, by decide,
    (occurrence_nonpositive_first (("foo a bar a").data) zeroOccChange 0
      rfl rfl (by decide) rfl rfl).2.2 (by decide)⟩

/-! ## Index invariants -/

/-- Well-formedness of the inverted index as a map: no duplicate
keys, and every posting set non-empty (garbage-collected keys) and
duplicate-free (it models a JavaScript `Set`). -/
def IndexWf (index : WordIndex) : Prop :=
  (index.map Prod.fst).Nodup ∧ ∀ e ∈ index, e.2 ≠ [] ∧ e.2.Nodup

/-- Consistency of a whole store: the index is well-formed, document
ids are unique, and the index holds exactly the live term/document
memberships. -/
def StoreWf (s : StoreState) : Prop :=
  IndexWf s.wordIndex ∧
  (s.documents.map Document.id).Nodup ∧
  (∀ t x, x ∈ idxLookup s.wordIndex t ↔
    ∃ doc ∈ s.documents, doc.id = x ∧ t ∈ termsOf doc)

theorem idxLookup_nil (t : List Char) : idxLookup [] t = [] := rfl

theorem idxLookup_cons (e : List Char × List (List Char)) (index : WordIndex)
    (t : List Char) :
    idxLookup (e :: index) t = if e.1 = t then e.2 else idxLookup index t := by
  by_cases h : e.1 = t <;> simp [idxLookup, List.find?_cons, h]

theorem idxLookup_not_mem (index : WordIndex) (t : List Char)
    (h : t ∉ index.map Prod.fst) : idxLookup index t = [] := by
  unfold idxLookup
  rw [List.find?_eq_none.mpr]
  intro e he
  simp only [decide_eq_true_eq]
  intro het
  exact h (List.mem_map.mpr ⟨e, he, het⟩)

theorem mem_idxLookup_idxAdd (index : WordIndex) (t d u x : List Char) :
    x ∈ idxLookup (idxAdd index t d) u ↔
      x ∈ idxLookup index u ∨ (u = t ∧ x = d) := by
  induction index with
  | nil =>
    simp only [idxAdd, idxLookup_cons, idxLookup_nil]
    by_cases h : t = u
    · subst h
      simp
    · rw [if_neg h]
      simp only [List.not_mem_nil, false_or, false_iff, not_and]
      intro hh _
      exact h hh.symm
  | cons e rest ih =>
    by_cases het : e.1 = t
    · have hadd : idxAdd (e :: rest) t d =
          (e.1, if d ∈ e.2 then e.2 else e.2 ++ [d]) :: rest := by
        simp only [idxAdd]
        rw [if_pos het]
      rw [hadd, idxLookup_cons, idxLookup_cons]
      by_cases hu : e.1 = u
      · rw [if_pos hu, if_pos hu]
        have hut : u = t := hu ▸ het
        by_cases hd : d ∈ e.2
        · rw [if_pos hd]
          constructor
          · intro h
            exact Or.inl h
          · rintro (h | ⟨-, rfl⟩)
            · exact h
            · exact hd
        · rw [if_neg hd]
          simp only [List.mem_append, List.mem_singleton, hut, true_and]
      · rw [if_neg hu, if_neg hu]
        have hut : ¬(u = t) := fun hh => hu (het.trans hh.symm)
        simp [hut]
    · have hadd : idxAdd (e :: rest) t d = e :: idxAdd rest t d := by
        simp only [idxAdd]
        rw [if_neg het]
      rw [hadd, idxLookup_cons, idxLookup_cons]
      by_cases hu : e.1 = u
      · rw [if_pos hu, if_pos hu]
        have hut : ¬(u = t) := fun hh => het (hu.trans hh)
        simp [hut]
      · rw [if_neg hu, if_neg hu]
        exact ih

theorem keys_idxAdd_mem (index : WordIndex) (t d : List Char) :
    ∀ u ∈ (idxAdd index t d).map Prod.fst, u ∈ index.map Prod.fst ∨ u = t := by
  induction index with
  | nil =>
    intro u hu
    simp only [idxAdd, List.map_cons, List.map_nil, List.mem_singleton] at hu
    exact Or.inr hu
  | cons e rest ih =>
    intro u hu
    by_cases het : e.1 = t
    · have hadd : idxAdd (e :: rest) t d =
          (e.1, if d ∈ e.2 then e.2 else e.2 ++ [d]) :: rest := by
        simp only [idxAdd]
        rw [if_pos het]
      rw [hadd] at hu
      simp only [List.map_cons, List.mem_cons] at hu
      rcases hu with rfl | hu
      · exact Or.inl (by simp)
      · exact Or.inl (by simp [hu])
    · have hadd : idxAdd (e :: rest) t d = e :: idxAdd rest t d := by
        simp only [idxAdd]
        rw [if_neg het]
      rw [hadd] at hu
      simp only [List.map_cons, List.mem_cons] at hu
      rcases hu with rfl | hu
      · exact Or.inl (by simp)
      · rcases ih u hu with hin | rfl
        · exact Or.inl (by simp [hin])
        · exact Or.inr rfl

theorem idxAdd_indexWf (index : WordIndex) (t d : List Char) (h : IndexWf index) :
    IndexWf (idxAdd index t d) := by
  induction index with
  | nil =>
    refine ⟨by simp [idxAdd], ?_⟩
    intro e he
    simp only [idxAdd, List.mem_singleton] at he
    subst he
    simp
  | cons e rest ih =>
    obtain ⟨hkeys, hent⟩ := h
    simp only [List.map_cons, List.nodup_cons] at hkeys
    have hrestwf : IndexWf rest := ⟨hkeys.2, fun e' he' => hent e' (List.mem_cons_of_mem e he')⟩
    have hee := hent e (List.mem_cons_self e rest)
    by_cases het : e.1 = t
    · have hadd : idxAdd (e :: rest) t d =
          (e.1, if d ∈ e.2 then e.2 else e.2 ++ [d]) :: rest := by
        simp only [idxAdd]
        rw [if_pos het]
      rw [hadd]
      refine ⟨?_, ?_⟩
      · simpa [List.nodup_cons] using hkeys
      · intro e' he'
        rcases List.mem_cons.mp he' with rfl | he'
        · by_cases hd : d ∈ e.2
          · simpa [hd] using hee
          · rw [if_neg hd]
            refine ⟨by simp, ?_⟩
            rw [List.nodup_append]
            exact ⟨hee.2, List.nodup_singleton d, by
              intro a ha hha
              rw [List.mem_singleton] at hha
              exact hd (hha ▸ ha)⟩
        · exact hent e' (List.mem_cons_of_mem e he')
    · have hadd : idxAdd (e :: rest) t d = e :: idxAdd rest t d := by
        simp only [idxAdd]
        rw [if_neg het]
      rw [hadd]
      obtain ⟨ihk, ihe⟩ := ih hrestwf
      refine ⟨?_, ?_⟩
      · simp only [List.map_cons, List.nodup_cons]
        refine ⟨?_, ihk⟩
        intro hmem
        rcases keys_idxAdd_mem rest t d e.1 hmem with hin | heq
        · exact hkeys.1 hin
        · exact het heq
      · intro e' he'
        rcases List.mem_cons.mp he' with rfl | he'
        · exact hee
        · exact ihe e' he'

theorem keys_idxRemove_sublist (index : WordIndex) (t d : List Char) :
    ((idxRemove index t d).map Prod.fst).Sublist (index.map Prod.fst) := by
  induction index with
  | nil => simp [idxRemove]
  | cons e rest ih =>
    by_cases het : e.1 = t
    · have hrem : idxRemove (e :: rest) t d =
          (if (e.2.erase d).isEmpty then rest else (e.1, e.2.erase d) :: rest) := by
        simp only [idxRemove]
        rw [if_pos het]
      rw [hrem]
      by_cases hemp : (e.2.erase d).isEmpty
      · rw [if_pos hemp]
        simp
      · rw [if_neg hemp]
        simp
    · have hrem : idxRemove (e :: rest) t d = e :: idxRemove rest t d := by
        simp only [idxRemove]
        rw [if_neg het]
      rw [hrem]
      simpa using ih.cons₂ e.1

theorem idxRemove_indexWf (index : WordIndex) (t d : List Char) (h : IndexWf index) :
    IndexWf (idxRemove index t d) := by
  induction index with
  | nil => exact h
  | cons e rest ih =>
    obtain ⟨hkeys, hent⟩ := h
    simp only [List.map_cons, List.nodup_cons] at hkeys
    have hrestwf : IndexWf rest := ⟨hkeys.2, fun e' he' => hent e' (List.mem_cons_of_mem e he')⟩
    have hee := hent e (List.mem_cons_self e rest)
    by_cases het : e.1 = t
    · have hrem : idxRemove (e :: rest) t d =
          (if (e.2.erase d).isEmpty then rest else (e.1, e.2.erase d) :: rest) := by
        simp only [idxRemove]
        rw [if_pos het]
      rw [hrem]
      by_cases hemp : (e.2.erase d).isEmpty
      · rw [if_pos hemp]
        exact hrestwf
      · rw [if_neg hemp]
        refine ⟨by simpa [List.nodup_cons] using hkeys, ?_⟩
        intro e' he'
        rcases List.mem_cons.mp he' with rfl | he'
        · exact ⟨by simpa [List.isEmpty_iff] using hemp, hee.2.erase d⟩
        · exact hent e' (List.mem_cons_of_mem e he')
    · have hrem : idxRemove (e :: rest) t d = e :: idxRemove rest t d := by
        simp only [idxRemove]
        rw [if_neg het]
      rw [hrem]
      obtain ⟨ihk, ihe⟩ := ih hrestwf
      refine ⟨?_, ?_⟩
      · simp only [List.map_cons, List.nodup_cons]
        refine ⟨?_, ihk⟩
        intro hmem
        exact hkeys.1 ((keys_idxRemove_sublist rest t d).mem hmem)
      · intro e' he'
        rcases List.mem_cons.mp he' with rfl | he'
        · exact hee
        · exact ihe e' he'

theorem mem_idxLookup_idxRemove (index : WordIndex) (t d u x : List Char)
    (h : IndexWf index) :
    x ∈ idxLookup (idxRemove index t d) u ↔
      x ∈ idxLookup index u ∧ ¬(u = t ∧ x = d) := by
  induction index with
  | nil => simp [idxRemove, idxLookup_nil]
  | cons e rest ih =>
    obtain ⟨hkeys, hent⟩ := h
    simp only [List.map_cons, List.nodup_cons] at hkeys
    have hrestwf : IndexWf rest := ⟨hkeys.2, fun e' he' => hent e' (List.mem_cons_of_mem e he')⟩
    have hee := hent e (List.mem_cons_self e rest)
    by_cases het : e.1 = t
    · have hrem : idxRemove (e :: rest) t d =
          (if (e.2.erase d).isEmpty then rest else (e.1, e.2.erase d) :: rest) := by
        simp only [idxRemove]
        rw [if_pos het]
      rw [hrem]
      by_cases hu : u = t
      · have heu' : e.1 = u := by rw [het, hu]
        by_cases hemp : (e.2.erase d).isEmpty
        · rw [if_pos hemp]
          have hrestnil : idxLookup rest u = [] := by
            refine idxLookup_not_mem rest u ?_
            intro hmem
            exact hkeys.1 (heu' ▸ hmem)
          rw [hrestnil, idxLookup_cons, if_pos heu']
          have herase : e.2.erase d = [] := List.isEmpty_iff.mp hemp
          simp only [List.not_mem_nil, false_iff, not_and, hu, true_and]
          intro hxe hnd
          have : x ∈ e.2.erase d := (hee.2.mem_erase_iff).mpr ⟨hnd, hxe⟩
          rw [herase] at this
          exact List.not_mem_nil x this
        · rw [if_neg hemp, idxLookup_cons, idxLookup_cons, if_pos heu', if_pos heu']
          rw [hee.2.mem_erase_iff]
          simp only [hu, true_and]
          constructor
          · rintro ⟨hnd, hxe⟩
            exact ⟨hxe, hnd⟩
          · rintro ⟨hxe, hnd⟩
            exact ⟨hnd, hxe⟩
      · have heu : ¬(e.1 = u) := fun hh => hu (hh.symm.trans het)
        by_cases hemp : (e.2.erase d).isEmpty
        · rw [if_pos hemp, idxLookup_cons, if_neg heu]
          simp [hu]
        · rw [if_neg hemp, idxLookup_cons, idxLookup_cons, if_neg heu, if_neg heu]
          simp [hu]
    · have hrem : idxRemove (e :: rest) t d = e :: idxRemove rest t d := by
        simp only [idxRemove]
        rw [if_neg het]
      rw [hrem, idxLookup_cons, idxLookup_cons]
      by_cases hu : e.1 = u
      · rw [if_pos hu, if_pos hu]
        have hut : ¬(u = t) := fun hh => het (hu.trans hh)
        simp [hut]
      · rw [if_neg hu, if_neg hu]
        exact ih hrestwf

theorem mem_idxLookup_foldAdd (d : List Char) :
    ∀ (ws : List (List Char)) (index : WordIndex) (u x : List Char),
      x ∈ idxLookup (ws.foldl (fun ix w => idxAdd ix w d) index) u ↔
        x ∈ idxLookup index u ∨ (u ∈ ws ∧ x = d) := by
  intro ws
  induction ws with
  | nil =>
    intro index u x
    simp
  | cons w rest ih =>
    intro index u x
    simp only [List.foldl_cons]
    rw [ih, mem_idxLookup_idxAdd]
    constructor
    · rintro ((h | ⟨rfl, rfl⟩) | ⟨hm, rfl⟩)
      · exact Or.inl h
      · exact Or.inr ⟨List.mem_cons_self _ _, rfl⟩
      · exact Or.inr ⟨List.mem_cons_of_mem _ hm, rfl⟩
    · rintro (h | ⟨hm, rfl⟩)
      · exact Or.inl (Or.inl h)
      · rcases List.mem_cons.mp hm with rfl | hm
        · exact Or.inl (Or.inr ⟨rfl, rfl⟩)
        · exact Or.inr ⟨hm, rfl⟩

theorem foldAdd_indexWf (d : List Char) :
    ∀ (ws : List (List Char)) (index : WordIndex), IndexWf index →
      IndexWf (ws.foldl (fun ix w => idxAdd ix w d) index) := by
  intro ws
  induction ws with
  | nil => intro index h; exact h
  | cons w rest ih =>
    intro index h
    exact ih _ (idxAdd_indexWf index w d h)

theorem foldRemove_indexWf (d : List Char) :
    ∀ (ws : List (List Char)) (index : WordIndex), IndexWf index →
      IndexWf (ws.foldl (fun ix w => idxRemove ix w d) index) := by
  intro ws
  induction ws with
  | nil => intro index h; exact h
  | cons w rest ih =>
    intro index h
    exact ih _ (idxRemove_indexWf index w d h)

theorem mem_idxLookup_foldRemove (d : List Char) :
    ∀ (ws : List (List Char)) (index : WordIndex) (u x : List Char), IndexWf index →
      (x ∈ idxLookup (ws.foldl (fun ix w => idxRemove ix w d) index) u ↔
        x ∈ idxLookup index u ∧ ¬(u ∈ ws ∧ x = d)) := by
  intro ws
  induction ws with
  | nil =>
    intro index u x _
    simp
  | cons w rest ih =>
    intro index u x h
    simp only [List.foldl_cons]
    rw [ih _ u x (idxRemove_indexWf index w d h), mem_idxLookup_idxRemove index w d u x h]
    constructor
    · rintro ⟨⟨hm, hn1⟩, hn2⟩
      refine ⟨hm, ?_⟩
      rintro ⟨hu, rfl⟩
      rcases List.mem_cons.mp hu with rfl | hu
      · exact hn1 ⟨rfl, rfl⟩
      · exact hn2 ⟨hu, rfl⟩
    · rintro ⟨hm, hn⟩
      refine ⟨⟨hm, ?_⟩, ?_⟩
      · rintro ⟨rfl, rfl⟩
        exact hn ⟨List.mem_cons_self _ _, rfl⟩
      · rintro ⟨hu, rfl⟩
        exact hn ⟨List.mem_cons_of_mem _ hu, rfl⟩

theorem mem_idxLookup_indexDocument (doc : Document) (index : WordIndex)
    (u x : List Char) :
    x ∈ idxLookup (indexDocument doc index) u ↔
      x ∈ idxLookup index u ∨ (u ∈ termsOf doc ∧ x = doc.id) :=
  mem_idxLookup_foldAdd doc.id (termsOf doc) index u x

theorem mem_idxLookup_removeFromIndex (doc : Document) (index : WordIndex)
    (u x : List Char) (h : IndexWf index) :
    x ∈ idxLookup (removeFromIndex doc index) u ↔
      x ∈ idxLookup index u ∧ ¬(u ∈ termsOf doc ∧ x = doc.id) :=
  mem_idxLookup_foldRemove doc.id (termsOf doc) index u x h

theorem indexDocument_indexWf (doc : Document) (index : WordIndex) (h : IndexWf index) :
    IndexWf (indexDocument doc index) :=
  foldAdd_indexWf doc.id (termsOf doc) index h

theorem removeFromIndex_indexWf (doc : Document) (index : WordIndex) (h : IndexWf index) :
    IndexWf (removeFromIndex doc index) :=
  foldRemove_indexWf doc.id (termsOf doc) index h

/-! ## Store-level consistency lemmas -/

theorem nodup_id_eq {docs : List Document} (h : (docs.map Document.id).Nodup)
    {d1 d2 : Document} (h1 : d1 ∈ docs) (h2 : d2 ∈ docs) (hid : d1.id = d2.id) :
    d1 = d2 :=
  List.inj_on_of_nodup_map h h1 h2 hid

theorem docFind_some {s : StoreState} {id : List Char} {doc : Document}
    (h : docFind s id = some doc) : doc ∈ s.documents ∧ doc.id = id := by
  unfold docFind at h
  refine ⟨List.mem_of_find?_eq_some h, ?_⟩
  have := List.find?_some h
  simpa using this

theorem map_id_replace (docs : List Document) (doc' : Document) (id : List Char)
    (hid : doc'.id = id) :
    (docs.map (fun d => if d.id = id then doc' else d)).map Document.id =
      docs.map Document.id := by
  rw [List.map_map]
  apply List.map_congr_left
  intro d _
  by_cases h : d.id = id
  · simp [Function.comp, h, hid]
  · simp [Function.comp, h]

/-- Replacing one stored document by a new one with the same id, and
re-indexing (full removal of the old term set, then insertion of the
new), preserves store consistency. -/
theorem storeWf_replace (s : StoreState) (doc doc' : Document)
    (hwf : StoreWf s) (hmem : doc ∈ s.documents) (hid : doc'.id = doc.id) :
    StoreWf ⟨s.documents.map (fun d => if d.id = doc.id then doc' else d),
      indexDocument doc' (removeFromIndex doc s.wordIndex)⟩ := by
  obtain ⟨hiwf, hnodup, hmemiff⟩ := hwf
  refine ⟨indexDocument_indexWf _ _ (removeFromIndex_indexWf _ _ hiwf), ?_, ?_⟩
  · show ((s.documents.map (fun d => if d.id = doc.id then doc' else d)).map
      Document.id).Nodup
    rw [map_id_replace s.documents doc' doc.id hid]
    exact hnodup
  · intro t x
    show x ∈ idxLookup (indexDocument doc' (removeFromIndex doc s.wordIndex)) t ↔ _
    rw [mem_idxLookup_indexDocument, mem_idxLookup_removeFromIndex _ _ _ _ hiwf,
      hmemiff]
    constructor
    · rintro (⟨⟨dd, hdd, rfl, hterm⟩, hnot⟩ | ⟨hterm, rfl⟩)
      · by_cases hddid : dd.id = doc.id
        · have hde : dd = doc := nodup_id_eq hnodup hdd hmem hddid
          subst hde
          exact absurd ⟨hterm, rfl⟩ hnot
        · exact ⟨dd, List.mem_map.mpr ⟨dd, hdd, by simp [hddid]⟩, rfl, hterm⟩
      · exact ⟨doc', List.mem_map.mpr ⟨doc, hmem, by simp⟩, rfl, hterm⟩
    · rintro ⟨dd, hdd, rfl, hterm⟩
      rcases List.mem_map.mp hdd with ⟨d0, hd0, heq⟩
      by_cases hd0id : d0.id = doc.id
      · rw [if_pos hd0id] at heq
        subst heq
        exact Or.inr ⟨hterm, rfl⟩
      · rw [if_neg hd0id] at heq
        subst heq
        refine Or.inl ⟨⟨d0, hd0, rfl, hterm⟩, ?_⟩
        rintro ⟨-, h⟩
        exact hd0id h

/-- Replacing one stored document by a new one with the same id and
the SAME term set, without touching the index, preserves store
consistency (the `patchDocument` path with unchanged title). -/
theorem storeWf_replace_same (s : StoreState) (doc doc' : Document)
    (hwf : StoreWf s) (hmem : doc ∈ s.documents) (hid : doc'.id = doc.id)
    (hterms : termsOf doc' = termsOf doc) :
    StoreWf ⟨s.documents.map (fun d => if d.id = doc.id then doc' else d),
      s.wordIndex⟩ := by
  obtain ⟨hiwf, hnodup, hmemiff⟩ := hwf
  refine ⟨hiwf, ?_, ?_⟩
  · show ((s.documents.map (fun d => if d.id = doc.id then doc' else d)).map
      Document.id).Nodup
    rw [map_id_replace s.documents doc' doc.id hid]
    exact hnodup
  · intro t x
    show x ∈ idxLookup s.wordIndex t ↔ _
    rw [hmemiff]
    constructor
    · rintro ⟨dd, hdd, rfl, hterm⟩
      by_cases hddid : dd.id = doc.id
      · have hde : dd = doc := nodup_id_eq hnodup hdd hmem hddid
        subst hde
        refine ⟨doc', List.mem_map.mpr ⟨dd, hdd, by simp [hddid]⟩, ?_, ?_⟩
        · rw [hid, hddid]
        · rw [hterms]
          exact hterm
      · exact ⟨dd, List.mem_map.mpr ⟨dd, hdd, by simp [hddid]⟩, rfl, hterm⟩
    · rintro ⟨dd, hdd, rfl, hterm⟩
      rcases List.mem_map.mp hdd with ⟨d0, hd0, heq⟩
      by_cases hd0id : d0.id = doc.id
      · rw [if_pos hd0id] at heq
        subst heq
        refine ⟨doc, hmem, ?_, ?_⟩
        · rw [hid]
        · rw [← hterms]
          exact hterm
      · rw [if_neg hd0id] at heq
        subst heq
        exact ⟨d0, hd0, rfl, hterm⟩

/-- Appending a document with a fresh id and inserting its term set
into the index preserves store consistency (`createDocument`). -/
theorem storeWf_create (s : StoreState) (doc : Document) (hwf : StoreWf s)
    (hfresh : doc.id ∉ s.documents.map Document.id) :
    StoreWf ⟨s.documents ++ [doc], indexDocument doc s.wordIndex⟩ := by
  obtain ⟨hiwf, hnodup, hmemiff⟩ := hwf
  refine ⟨indexDocument_indexWf _ _ hiwf, ?_, ?_⟩
  · show ((s.documents ++ [doc]).map Document.id).Nodup
    rw [List.map_append, List.nodup_append]
    refine ⟨hnodup, by simp, ?_⟩
    intro a ha hb
    simp only [List.map_cons, List.map_nil, List.mem_singleton] at hb
    subst hb
    exact hfresh ha
  · intro t x
    show x ∈ idxLookup (indexDocument doc s.wordIndex) t ↔ _
    rw [mem_idxLookup_indexDocument, hmemiff]
    constructor
    · rintro (⟨dd, hdd, rfl, ht⟩ | ⟨ht, rfl⟩)
      · exact ⟨dd, List.mem_append_left _ hdd, rfl, ht⟩
      · exact ⟨doc, List.mem_append_right _ (List.mem_singleton.mpr rfl), rfl, ht⟩
    · rintro ⟨dd, hdd, rfl, ht⟩
      rcases List.mem_append.mp hdd with h | h
      · exact Or.inl ⟨dd, h, rfl, ht⟩
      · rw [List.mem_singleton] at h
        subst h
        exact Or.inr ⟨ht, rfl⟩

/-- Removing a stored document from storage and from the index
preserves store consistency (`deleteDocument`). -/
theorem storeWf_delete (s : StoreState) (doc : Document) (hwf : StoreWf s)
    (hmem : doc ∈ s.documents) :
    StoreWf ⟨s.documents.filter (fun d => decide (d.id ≠ doc.id)),
      removeFromIndex doc s.wordIndex⟩ := by
  obtain ⟨hiwf, hnodup, hmemiff⟩ := hwf
  refine ⟨removeFromIndex_indexWf _ _ hiwf, ?_, ?_⟩
  · show ((s.documents.filter (fun d => decide (d.id ≠ doc.id))).map Document.id).Nodup
    exact hnodup.sublist ((List.filter_sublist s.documents).map Document.id)
  · intro t x
    show x ∈ idxLookup (removeFromIndex doc s.wordIndex) t ↔ _
    rw [mem_idxLookup_removeFromIndex _ _ _ _ hiwf, hmemiff]
    constructor
    · rintro ⟨⟨dd, hdd, rfl, ht⟩, hnot⟩
      have hddne : dd.id ≠ doc.id := by
        intro he
        have hde : dd = doc := nodup_id_eq hnodup hdd hmem he
        subst hde
        exact hnot ⟨ht, rfl⟩
      exact ⟨dd, List.mem_filter.mpr ⟨hdd, by simp [hddne]⟩, rfl, ht⟩
    · rintro ⟨dd, hdd, rfl, ht⟩
      have h2 := List.mem_filter.mp hdd
      have hddne : dd.id ≠ doc.id := by simpa using h2.2
      refine ⟨⟨dd, h2.1, rfl, ht⟩, ?_⟩
      rintro ⟨-, he⟩
      exact hddne he

theorem applyDocUpdates_id (doc : Document) (u : UpdateDocumentInput) :
    (applyDocUpdates doc u).id = doc.id := by
  unfold applyDocUpdates
  cases u.title <;> cases u.content <;> rfl

theorem applyDocPatch_id (doc : Document) (p : PatchDocumentInput) :
    (applyDocPatch doc p).id = doc.id := by
  unfold applyDocPatch
  cases p.title <;> cases p.author <;> cases p.tags <;> rfl

theorem applyDocPatch_content (doc : Document) (p : PatchDocumentInput) :
    (applyDocPatch doc p).content = doc.content := by
  unfold applyDocPatch
  cases p.title <;> cases p.author <;> cases p.tags <;> rfl

theorem applyDocPatch_title_same (doc : Document) (p : PatchDocumentInput)
    (h : patchTitleChanged doc p = false) :
    (applyDocPatch doc p).title = doc.title := by
  unfold applyDocPatch
  cases hp : p.title with
  | none => cases p.author <;> cases p.tags <;> rfl
  | some t =>
    have ht : t = doc.title := by
      unfold patchTitleChanged at h
      rw [hp] at h
      simpa using h
    cases p.author <;> cases p.tags <;> simp [ht]

theorem termsOf_congr {d1 d2 : Document} (ht : d1.title = d2.title)
    (hc : d1.content = d2.content) : termsOf d1 = termsOf d2 := by
  unfold termsOf
  rw [ht, hc]

/-- Claim C2: starting from the empty store, after every successful
`createDocument` (with a fresh id), `updateDocument`, `patchDocument`
or `deleteDocument`, the inverted index exactly reflects the current
term membership of every live document — a document id is in the
posting set of a term exactly when a stored document with that id
contains the term among the normalized words of its title or content —
and no term with an empty posting set remains as an index key
(`StoreWf` also carries the structural map invariants: unique index
keys, duplicate-free postings, unique document ids). -/
theorem store_index_invariant :
    StoreWf emptyStore ∧
    (∀ (s : StoreState) (id : List Char) (input : CreateDocumentInput) (now : List Char),
      StoreWf s → id ∉ s.documents.map Document.id →
      StoreWf (createDocument s id input now).1) ∧
    (∀ (s : StoreState) (id : List Char) (u : UpdateDocumentInput) (now : List Char),
      StoreWf s → StoreWf (updateDocument s id u now).1) ∧
    (∀ (s : StoreState) (id : List Char) (p : PatchDocumentInput) (now : List Char),
      StoreWf s → StoreWf (patchDocument s id p now).1) ∧
    (∀ (s : StoreState) (id : List Char),
      StoreWf s → StoreWf (deleteDocument s id).1) := by
  refine ⟨?_, ?_, ?_, ?_, ?_⟩
  · refine ⟨⟨by simp [emptyStore], by simp [emptyStore]⟩, by simp [emptyStore], ?_⟩
    intro t x
    simp [emptyStore, idxLookup]
  · intro s id input now hwf hfresh
    exact storeWf_create s _ hwf hfresh
  · intro s id u now hwf
    cases hf : docFind s id with
    | none => simpa [updateDocument, hf] using hwf
    | some doc =>
      obtain ⟨hmem, hdid⟩ := docFind_some hf
      subst hdid
      simp only [updateDocument, hf]
      exact storeWf_replace s doc _ hwf hmem (applyDocUpdates_id doc u)
  · intro s id p now hwf
    cases hf : docFind s id with
    | none => simpa [patchDocument, hf] using hwf
    | some doc =>
      obtain ⟨hmem, hdid⟩ := docFind_some hf
      subst hdid
      by_cases htc : patchTitleChanged doc p = true
      · simp only [patchDocument, hf, htc, if_true]
        exact storeWf_replace s doc _ hwf hmem (applyDocPatch_id doc p)
      · have htc' : patchTitleChanged doc p = false := by
          simpa using htc
        simp only [patchDocument, hf, htc', Bool.false_eq_true, if_false]
        refine storeWf_replace_same s doc _ hwf hmem (applyDocPatch_id doc p) ?_
        exact termsOf_congr (applyDocPatch_title_same doc p htc')
          (applyDocPatch_content doc p)
  · intro s id hwf
    cases hf : docFind s id with
    | none => simpa [deleteDocument, hf] using hwf
    | some doc =>
      obtain ⟨hmem, hdid⟩ := docFind_some hf
      subst hdid
      simp only [deleteDocument, hf]
      exact storeWf_delete s doc hwf hmem

/-- Witness for C2: the invariant transported along a concrete
creation from the empty store. -/
theorem store_index_invariant_witness :
    (("d1").data ∉ emptyStore.documents.map Document.id) ∧ StoreWf demoStore1 :=
  ⟨by decide,
    store_index_invariant.2.1 emptyStore (("d1").data)
      { title := ("T1").data, content := ("hello world today").data } (("t1").data)
      store_index_invariant.1 (by decide)⟩
